import Mathlib

/-!
Verification of the caption-parsing, category-classification, record-building and
upsert logic of `main.py` (a Telegram-channel watcher that looks captions up on
TMDB and upserts movie records into MongoDB).

Strings are modelled as lists of code points (`List Nat`) with ASCII case,
whitespace and word-character semantics, matching the behaviour of the Python
source on ASCII text.  Fallible Python evaluation (an expression that raises) is
modelled with `Option` / an explicit error value.
-/

/-- ASCII decimal digit 0-9. -/
def isDigitN (c : Nat) : Bool := decide (48 ≤ c ∧ c ≤ 57)

/-- Python regex word character `\w` (ASCII fragment): letters, digits, underscore. -/
def isWordCharN (c : Nat) : Bool :=
  isDigitN c || decide (65 ≤ c ∧ c ≤ 90) || decide (97 ≤ c ∧ c ≤ 122) || decide (c = 95)

/-- Python str whitespace (ASCII fragment): space, tab, newline, carriage return,
vertical tab, form feed. -/
def isSpaceCharN (c : Nat) : Bool :=
  decide (c = 32) || decide (c = 9) || decide (c = 10) || decide (c = 13) ||
    decide (c = 11) || decide (c = 12)

/-- ASCII `str.lower` on one code point. -/
def lowerN (c : Nat) : Nat := if 65 ≤ c ∧ c ≤ 90 then c + 32 else c

/-- ASCII `str.upper` on one code point. -/
def upperN (c : Nat) : Nat := if 97 ≤ c ∧ c ≤ 122 then c - 32 else c

/-- Code points of a Lean string literal (used to write concrete inputs). -/
def strL (s : String) : List Nat := s.data.map Char.toNat

/-- Boolean list-prefix test. -/
def prefB : List Nat → List Nat → Bool
  | [], _ => true
  | _ :: _, [] => false
  | a :: as, b :: bs => a == b && prefB as bs

/-- Python substring test `y in t`. -/
def subB (y : List Nat) : List Nat → Bool
  | [] => prefB y []
  | c :: t => prefB y (c :: t) || subB y t

/-- Leftmost match of the regex `\b(19|20)\d{2}\b` (source line 40): scan the
caption position by position; `prevW` records whether the previous character is
a word character, so that the leading `\b` holds exactly when `prevW` is false. -/
def findYearAux : List Nat → Bool → Option (List Nat)
  | c1 :: c2 :: c3 :: c4 :: rest, prevW =>
    if !prevW && ((c1 == 49 && c2 == 57) || (c1 == 50 && c2 == 48)) && isDigitN c3 &&
        isDigitN c4 && !(match rest with | [] => false | r :: _ => isWordCharN r) then
      some [c1, c2, c3, c4]
    else
      findYearAux (c2 :: c3 :: c4 :: rest) (isWordCharN c1)
  | _, _ => none

/-- `re.search(r"\b(19|20)\d{2}\b", caption)` returning the matched text. -/
def findYear (caption : List Nat) : Option (List Nat) := findYearAux caption false

/-- Remainder after the nearest closing character, provided it occurs before a
newline: the lazy pattern `\[.*?\]` matches up to the first `]`, and `.` does not
match a newline. -/
def findCloser (close : Nat) : List Nat → Option (List Nat)
  | [] => none
  | c :: rest =>
    if c == close then some rest else if c == 10 then none else findCloser close rest

/-- Closing bracket matching an opening bracket, if the character is one. -/
def closerOf (c : Nat) : Option Nat :=
  if c == 91 then some 93 else if c == 40 then some 41 else if c == 123 then some 125 else none

/-- One pass of `re.sub(r"\[.*?\]|\(.*?\)|\{.*?\}", " ", text)` (source line 43),
fuelled by the input length (every step consumes at least one character). -/
def subBracketsAux : Nat → List Nat → List Nat
  | 0, s => s
  | _ + 1, [] => []
  | fuel + 1, c :: rest =>
    match closerOf c with
    | some cl =>
      match findCloser cl rest with
      | some rest2 => 32 :: subBracketsAux fuel rest2
      | none => c :: subBracketsAux fuel rest
    | none => c :: subBracketsAux fuel rest

def subBrackets (s : List Nat) : List Nat := subBracketsAux s.length s

/-- `re.sub(r"[^\w\s]", " ", text)` (source line 44). -/
def punctMap (s : List Nat) : List Nat :=
  s.map (fun c => if !isWordCharN c && !isSpaceCharN c then 32 else c)

/-- `re.sub(r"\s+", " ", text)`: collapse every whitespace run to one space.
`prevSp` records whether the previous character was whitespace. -/
def collapseAux : Bool → List Nat → List Nat
  | _, [] => []
  | prevSp, c :: rest =>
    if isSpaceCharN c then
      (if prevSp then collapseAux true rest else 32 :: collapseAux true rest)
    else c :: collapseAux false rest

def collapseSp (s : List Nat) : List Nat := collapseAux false s

/-- Python `str.strip()`. -/
def strip (s : List Nat) : List Nat :=
  ((s.dropWhile isSpaceCharN).reverse.dropWhile isSpaceCharN).reverse

/-- Python `text.replace(y, "")` for nonempty `y`: delete the left-to-right
non-overlapping occurrences of `y`, fuelled by the input length (every step
consumes at least one character). -/
def replaceAllAux (y : List Nat) : Nat → List Nat → List Nat
  | 0, t => t
  | _ + 1, [] => []
  | fuel + 1, c :: t =>
    if !y.isEmpty && prefB y (c :: t) then replaceAllAux y fuel ((c :: t).drop y.length)
    else c :: replaceAllAux y fuel t

def replaceAll (y t : List Nat) : List Nat := replaceAllAux y t.length t

/-- Python `str.split()` with no argument: split on whitespace runs, dropping
empty tokens.  `acc` holds the reversed current token. -/
def splitWsAux : List Nat → List Nat → List (List Nat)
  | acc, [] => if acc.isEmpty then [] else [acc.reverse]
  | acc, c :: rest =>
    if isSpaceCharN c then
      (if acc.isEmpty then splitWsAux [] rest else acc.reverse :: splitWsAux [] rest)
    else splitWsAux (c :: acc) rest

def splitWs (s : List Nat) : List (List Nat) := splitWsAux [] s

/-- Python `str.capitalize()` (ASCII): first character uppercased, rest lowercased. -/
def capitalizeW : List Nat → List Nat
  | [] => []
  | c :: cs => upperN c :: cs.map lowerN

/-- Python `" ".join(ws)`. -/
def joinSp : List (List Nat) → List Nat
  | [] => []
  | [w] => w
  | w :: w2 :: ws => w ++ 32 :: joinSp (w2 :: ws)

/-- Lines 42-45 of `main.py`: lowercase, strip bracketed segments, replace
non-word non-space characters by spaces, collapse whitespace, strip. -/
def cleanText (caption : List Nat) : List Nat :=
  strip (collapseSp (punctMap (subBrackets (caption.map lowerN))))

/-- The result dictionary of `extract_title_year`. -/
structure Parsed where
  title : List Nat
  year : Option (List Nat)
deriving DecidableEq

/-- Lines 37-49: `extract_title_year`. -/
def extract_title_year (caption : List Nat) : Parsed :=
  if caption.isEmpty then ⟨[], none⟩
  else
    let year := findYear caption
    let text := cleanText caption
    let text2 := match year with
      | some y => strip (replaceAll y text)
      | none => text
    let title := if text2.isEmpty then [] else joinSp ((splitWs text2).map capitalizeW)
    ⟨title, year⟩

/-- The closed category enumeration. -/
inductive Category where
  | south
  | bollywood
  | hollywood
deriving DecidableEq

/-- Storage string of a category value. -/
def categoryStr : Category → List Nat
  | .south => strL "south"
  | .bollywood => strL "bollywood"
  | .hollywood => strL "hollywood"

/-- Lines 51-59: `detect_category` (its argument may be Python `None`). -/
def detect_category (caption : Option (List Nat)) : Category :=
  let c := (caption.getD []).map lowerN
  if subB (strL "tamil") c || subB (strL "telugu") c || subB (strL "malayalam") c ||
      subB (strL "kannada") c then .south
  else if subB (strL "dubbed") c || subB (strL "dual audio") c then .hollywood
  else if subB (strL "hindi") c then .bollywood
  else .hollywood


/-- JSON-ish document values (floats are carried as rationals; the source does no
arithmetic on them). -/
inductive Val where
  | vStr (s : List Nat)
  | vNull
  | vInt (n : Int)
  | vRat (q : ℚ)
  | vArr (l : List Val)

mutual

/-- Equality test on document values. -/
def valEqB : Val → Val → Bool
  | .vStr a, .vStr b => a == b
  | .vNull, .vNull => true
  | .vInt a, .vInt b => a == b
  | .vRat a, .vRat b => a == b
  | .vArr a, .vArr b => valListEqB a b
  | _, _ => false

/-- Equality test on value lists. -/
def valListEqB : List Val → List Val → Bool
  | [], [] => true
  | a :: as, b :: bs => valEqB a b && valListEqB as bs
  | _, _ => false

end

/-- Field keys of the persisted document; `schemaVersion` is stored under the
Mongo name `__v` (line 154). -/
inductive FKey where
  | title | posterUrl | backdropUrl | description | category | actors | director
  | producer | rating | downloadLinks | telegramLinks | seasons | trailerLink
  | genres | releaseDate | runtime | tagline | createdAt | updatedAt | schemaVersion
deriving DecidableEq, BEq

/-- Mongo field name of each key. -/
def fieldName : FKey → String
  | .title => "title"
  | .posterUrl => "posterUrl"
  | .backdropUrl => "backdropUrl"
  | .description => "description"
  | .category => "category"
  | .actors => "actors"
  | .director => "director"
  | .producer => "producer"
  | .rating => "rating"
  | .downloadLinks => "downloadLinks"
  | .telegramLinks => "telegramLinks"
  | .seasons => "seasons"
  | .trailerLink => "trailerLink"
  | .genres => "genres"
  | .releaseDate => "releaseDate"
  | .runtime => "runtime"
  | .tagline => "tagline"
  | .createdAt => "createdAt"
  | .updatedAt => "updatedAt"
  | .schemaVersion => "__v"

/-- A persisted document: the ordered field list of a Python dict. -/
abbrev Doc := List (FKey × Val)

/-- The Mongo collection, as the list of stored documents in natural order. -/
abbrev Store := List Doc

/-- Value of field `k` (Python `doc.get(k)` / `doc[k]`): the first binding. -/
def getVal : Doc → FKey → Option Val
  | [], _ => none
  | p :: d, k => if p.1 = k then some p.2 else getVal d k

/-- Python `doc[k] = v` for a key already present: in-place update keeps dict order. -/
def setVal (d : Doc) (k : FKey) (v : Val) : Doc :=
  d.map (fun p => if p.1 = k then (k, v) else p)

/-- Python truthiness of a document value. -/
def valTruthy : Val → Bool
  | .vStr s => !s.isEmpty
  | .vNull => false
  | .vInt n => n != 0
  | .vRat q => q != 0
  | .vArr l => !l.isEmpty

/-- One entry of `credits.cast` (only the field the source reads). -/
structure CastMember where
  name : Option (List Nat)

/-- One entry of `credits.crew`. -/
structure CrewMember where
  job : Option (List Nat)
  name : Option (List Nat)

/-- One entry of `videos.results` (`vtype` models the JSON field "type"). -/
structure Video where
  vtype : Option (List Nat)
  site : Option (List Nat)
  key : Option (List Nat)

/-- One entry of the genre list. -/
structure Genre where
  name : Option (List Nat)

/-- The TMDB details object, at the granularity the source reads it.  The
defensive chains `(tmdb.get("credits", {}) or {}).get("cast", [])`,
`(tmdb.get("videos", {}) or {}).get("results", [])` and `(tmdb.get("genres") or [])`
resolve an absent or null container to the empty list, so the containers are
modelled as plain lists. -/
structure Tmdb where
  title : Option (List Nat)
  poster_path : Option (List Nat)
  backdrop_path : Option (List Nat)
  overview : Option (List Nat)
  credits_cast : List CastMember
  credits_crew : List CrewMember
  videos_results : List Video
  genres : List Genre
  release_date : Option (List Nat)
  runtime : Option Int
  vote_average : Option ℚ
  tagline : Option (List Nat)

/-- Python `a or b` on strings. -/
def pyOr (a b : List Nat) : List Nat := if a.isEmpty then b else a

/-- Lines 85-86: `build_img`. -/
def build_img (path : Option (List Nat)) : List Nat :=
  match path with
  | some p => if p.isEmpty then [] else strL "https://image.tmdb.org/t/p/original" ++ p
  | none => []

/-- Python `", ".join`, failing (a `TypeError`) when an element is `None`. -/
def joinCommaOpt : List (Option (List Nat)) → Option (List Nat)
  | [] => some []
  | [x] => x
  | x :: xs => do
    let hd ← x
    let tl ← joinCommaOpt xs
    pure (hd ++ 44 :: 32 :: tl)

/-- Lines 93-95: the comma-joined actor string from the first ten cast entries;
`none` stands for the `TypeError` Python raises joining a missing name. -/
def actorsStr (tmdb : Option Tmdb) : Option (List Nat) :=
  let cast := match tmdb with | some t => t.credits_cast | none => []
  if cast.isEmpty then some []
  else joinCommaOpt ((cast.map CastMember.name).take 10)

/-- Lines 97-106: the crew loop.  A later matching member overwrites only while
the current value is falsy, so the result is the first member with the wanted
(lowercased) job and a truthy name, else the empty string. -/
def firstCrew (crew : List CrewMember) (jobName : List Nat) : List Nat :=
  match crew.find? (fun m =>
      ((m.job.getD []).map lowerN == jobName) && !(m.name.getD []).isEmpty) with
  | some m => m.name.getD []
  | none => []

/-- Lines 108-116: the trailer loop: the first video whose type is "trailer" and
site is "youtube" (case-insensitive) with a truthy key; the loop does not break
on a matching video whose key is falsy. -/
def trailerOf (videos : List Video) : List Nat :=
  match videos.find? (fun v =>
      ((v.vtype.getD []).map lowerN == strL "trailer") &&
      ((v.site.getD []).map lowerN == strL "youtube") && !(v.key.getD []).isEmpty) with
  | some v => strL "https://www.youtube.com/watch?v=" ++ v.key.getD []
  | none => []

/-- Line 119: `[g.get("name") for g in (tmdb.get("genres") or [])] if tmdb else []`;
a missing name yields a null element. -/
def genresVal (tmdb : Option Tmdb) : Val :=
  .vArr ((match tmdb with | some t => t.genres | none => []).map
    (fun (g : Genre) => match g.name with | some s => Val.vStr s | none => Val.vNull))

/-- Lines 89-156: `build_ordered_doc`.  The timestamp `now` is passed in for
`datetime.utcnow().isoformat() + "Z"` (line 91) and is the value of `createdAt`
and `updatedAt`.  Returns `none` exactly when `actorsStr` fails; otherwise the
dict in its exact insertion order.  The `category or "hollywood"` of line 139 is
the identity because a category string is never empty. -/
def build_ordered_doc (tmdb : Option Tmdb) (parsed_title : List Nat)
    (file_id : Option (List Nat)) (category : Category) (now : List Nat) : Option Doc :=
  match actorsStr tmdb with
  | none => none
  | some actors_str =>
    some [
      (FKey.title, Val.vStr (pyOr parsed_title
        (match tmdb with | some t => t.title.getD [] | none => []))),
      (FKey.posterUrl, Val.vStr (match tmdb with | some t => build_img t.poster_path | none => [])),
      (FKey.backdropUrl, Val.vStr (match tmdb with | some t => build_img t.backdrop_path | none => [])),
      (FKey.description, match tmdb with
        | some t => (match t.overview with | some s => Val.vStr s | none => Val.vNull)
        | none => Val.vStr []),
      (FKey.category, Val.vStr (categoryStr category)),
      (FKey.actors, Val.vStr actors_str),
      (FKey.director, Val.vStr (firstCrew
        (match tmdb with | some t => t.credits_crew | none => []) (strL "director"))),
      (FKey.producer, Val.vStr (firstCrew
        (match tmdb with | some t => t.credits_crew | none => []) (strL "producer"))),
      (FKey.rating, Val.vRat (match tmdb with | some t => t.vote_average.getD 0 | none => 0)),
      (FKey.downloadLinks, Val.vArr []),
      (FKey.telegramLinks, Val.vArr [Val.vStr (file_id.getD [])]),
      (FKey.seasons, Val.vArr []),
      (FKey.trailerLink, Val.vStr (trailerOf
        (match tmdb with | some t => t.videos_results | none => []))),
      (FKey.genres, genresVal tmdb),
      (FKey.releaseDate, Val.vStr (match tmdb with
        | some t => (match t.release_date with | some r => if r.isEmpty then [] else r | none => [])
        | none => [])),
      (FKey.runtime, Val.vInt (match tmdb with | some t => t.runtime.getD 0 | none => 0)),
      (FKey.tagline, match tmdb with
        | some t => (match t.tagline with | some s => Val.vStr s | none => Val.vNull)
        | none => Val.vStr []),
      (FKey.createdAt, Val.vStr now),
      (FKey.updatedAt, Val.vStr now),
      (FKey.schemaVersion, Val.vInt 0)
    ]

/-- Does a stored document match the Mongo filter `{"title": ft, "releaseDate": fr}`? -/
def keyMatches (ft fr : Val) (d : Doc) : Bool :=
  (match getVal d .title with | some v => valEqB v ft | none => false) &&
    (match getVal d .releaseDate with | some v => valEqB v fr | none => false)

/-- Mongo `collection.find_one(filter)`: the first matching document. -/
def find_one (ft fr : Val) (s : Store) : Option Doc :=
  (s : List Doc).find? (keyMatches ft fr)

/-- Mongo `collection.find_one_and_replace(filter, doc, upsert=True)`: replace
the first matching document, inserting when none matches. -/
def find_one_and_replace (ft fr : Val) (doc : Doc) : List Doc → List Doc
  | [] => [doc]
  | d :: rest =>
    if keyMatches ft fr d then doc :: rest else d :: find_one_and_replace ft fr doc rest

/-- Lines 230-237: look up the existing record by (title, releaseDate), carry a
truthy `createdAt` forward (line 234 keeps the fresh one when the existing value
is falsy or absent), then replace-or-insert. -/
def upsertStep (doc : Doc) (store : Store) : Store :=
  let ft := (getVal doc .title).getD .vNull
  let fr := (getVal doc .releaseDate).getD .vNull
  let doc2 := match find_one ft fr store with
    | some ex =>
      match getVal ex .createdAt with
      | some v => if valTruthy v then setVal doc .createdAt v else doc
      | none => doc
    | none => doc
  find_one_and_replace ft fr doc2 store

/-- An inbound media attachment (only the field the source reads). -/
structure Media where
  file_id : Option (List Nat)

/-- An inbound channel message. -/
structure Msg where
  video : Option Media
  document : Option Media
  caption : Option (List Nat)

/-- Line 164: `media = msg.video or msg.document`. -/
def mediaOf (m : Msg) : Option Media :=
  match m.video with
  | some v => some v
  | none => m.document

/-- One TMDB search result (only the field the source reads). -/
structure SearchResult where
  id : Option Int
deriving DecidableEq

/-- Lines 171-181: the TMDB search attempts, with the issued queries recorded in
order.  `searchFn` stands for `tmdb_search`; a failed call already yields `[]`
inside `tmdb_search` (lines 61-70). -/
def searchChain (searchFn : List Nat → Option (List Nat) → List SearchResult)
    (caption : List Nat) (parsed : Parsed) :
    List (List Nat × Option (List Nat)) × List SearchResult :=
  let title_for_search := pyOr parsed.title caption
  let s1 : List (List Nat × Option (List Nat)) × List SearchResult :=
    match parsed.year with
    | some y => ([(title_for_search, some y)], searchFn title_for_search (some y))
    | none => ([], [])
  let s2 :=
    if s1.2.isEmpty then (s1.1 ++ [(title_for_search, none)], searchFn title_for_search none)
    else s1
  if s2.2.isEmpty && !caption.isEmpty && !(caption == title_for_search) then
    (s2.1 ++ [(caption, none)], searchFn caption none)
  else s2

/-- Lines 218-219: `tmdb_details(results[0].get("id")) if tmdb_id else None`; a
falsy id (missing or 0) skips the fetch, and a failed fetch yields `None`. -/
def chooseDetails (detailsFn : Int → Option Tmdb) (r0 : SearchResult) : Option Tmdb :=
  match r0.id with
  | some i => if i == 0 then none else detailsFn i
  | none => none

/-- Uncaught Python exceptions of the handler body:
`unboundLocalTmdb` is the `UnboundLocalError` of line 203 (the minimal dict's
`genres` entry reads the local `tmdb`, first assigned only at line 219);
`joinTypeError` is the `TypeError` of line 95 (joining a cast name that is None). -/
inductive PyErr where
  | unboundLocalTmdb
  | joinTypeError
deriving DecidableEq

/-- Result of one handler run: the collection afterwards, the uncaught exception
if any, and the TMDB search queries issued, in order. -/
structure HResult where
  store : Store
  err : Option PyErr
  searches : List (List Nat × Option (List Nat))

/-- Lines 159-238: the message handler.  `now` stands for the timestamp taken
during the run, `searchFn` / `detailsFn` are the TMDB collaborators, and the
Mongo collection is threaded as `store`.  In the no-result branch the minimal
dict literal of lines 189-210 is evaluated entry by entry and its `genres` entry
(line 203) raises `UnboundLocalError`, so that branch never reaches the write at
line 213 and leaves the store unchanged. -/
def handle (msg : Option Msg) (searchFn : List Nat → Option (List Nat) → List SearchResult)
    (detailsFn : Int → Option Tmdb) (now : List Nat) (store : Store) : HResult :=
  match msg with
  | none => ⟨store, none, []⟩
  | some m =>
    match mediaOf m with
    | none => ⟨store, none, []⟩
    | some media =>
      match searchChain searchFn (m.caption.getD []) (extract_title_year (m.caption.getD [])) with
      | (qs, []) => ⟨store, some .unboundLocalTmdb, qs⟩
      | (qs, r0 :: _) =>
        match chooseDetails detailsFn r0 with
        | none => ⟨store, none, qs⟩
        | some t =>
          match build_ordered_doc (some t)
              (pyOr (extract_title_year (m.caption.getD [])).title (t.title.getD []))
              media.file_id (detect_category (some (m.caption.getD []))) now with
          | none => ⟨store, some .joinTypeError, qs⟩
          | some doc => ⟨upsertStep doc store, none, qs⟩

/-- Run planned search queries in order, stopping at the first non-empty result;
returns the attempted queries and the final result list. -/
def runPlan (searchFn : List Nat → Option (List Nat) → List SearchResult) :
    List (List Nat × Option (List Nat)) →
      List (List Nat × Option (List Nat)) × List SearchResult
  | [] => ([], [])
  | q :: qs =>
    let r := searchFn q.1 q.2
    if r.isEmpty then
      let rest := runPlan searchFn qs
      (q :: rest.1, rest.2)
    else ([q], r)

/-- Modelled from the spec, amended: the search title is the parsed title with
the raw caption as fallback when the parsed title is empty; the planned attempts
are (a) that title with the parsed year when a year was parsed, (b) that title
alone, (c) the raw caption when it is nonempty and differs from the search title. -/
def amendedPlan (caption : List Nat) (parsed : Parsed) :
    List (List Nat × Option (List Nat)) :=
  let t := if parsed.title.isEmpty then caption else parsed.title
  (match parsed.year with | some y => [(t, some y)] | none => []) ++ [(t, none)] ++
    (if !caption.isEmpty && !(caption == t) then [(caption, none)] else [])

/-- The claim's verbatim plan: every attempt uses the parsed title itself, and
the raw-caption attempt is conditioned only on the caption differing from the
parsed title. -/
def claimedPlan (caption : List Nat) (parsed : Parsed) :
    List (List Nat × Option (List Nat)) :=
  (match parsed.year with | some y => [(parsed.title, some y)] | none => []) ++
    [(parsed.title, none)] ++
    (if !(caption == parsed.title) then [(caption, none)] else [])


/-! Character-level lemmas. -/

theorem lowerN_idem (c : Nat) : lowerN (lowerN c) = lowerN c := by
  unfold lowerN; split_ifs <;> omega

theorem upperN_lowerN (c : Nat) : upperN (lowerN c) = upperN c := by
  unfold lowerN upperN; split_ifs <;> omega

theorem lowerN_upperN (c : Nat) : lowerN (upperN c) = lowerN c := by
  unfold lowerN upperN; split_ifs <;> omega

theorem isWordCharN_iff (c : Nat) : isWordCharN c = true ↔
    (48 ≤ c ∧ c ≤ 57) ∨ (65 ≤ c ∧ c ≤ 90) ∨ (97 ≤ c ∧ c ≤ 122) ∨ c = 95 := by
  simp only [isWordCharN, isDigitN, Bool.or_eq_true, decide_eq_true_eq]
  tauto

theorem isSpaceCharN_iff (c : Nat) : isSpaceCharN c = true ↔
    c = 32 ∨ c = 9 ∨ c = 10 ∨ c = 13 ∨ c = 11 ∨ c = 12 := by
  simp only [isSpaceCharN, Bool.or_eq_true, decide_eq_true_eq]
  tauto

theorem isDigitN_iff (c : Nat) : isDigitN c = true ↔ 48 ≤ c ∧ c ≤ 57 := by
  simp [isDigitN]

theorem word_not_space (c : Nat) (h : isWordCharN c = true) : isSpaceCharN c = false := by
  cases hs : isSpaceCharN c with
  | false => rfl
  | true =>
    rw [isWordCharN_iff] at h
    rw [isSpaceCharN_iff] at hs
    omega

theorem lowerN_word (c : Nat) (h : isWordCharN c = true) : isWordCharN (lowerN c) = true := by
  rw [isWordCharN_iff] at h ⊢
  unfold lowerN; split_ifs <;> omega

theorem upperN_word (c : Nat) (h : isWordCharN c = true) : isWordCharN (upperN c) = true := by
  rw [isWordCharN_iff] at h ⊢
  unfold upperN; split_ifs <;> omega

theorem upperN_digit (c : Nat) (h : isDigitN (upperN c) = true) : upperN c = c := by
  rw [isDigitN_iff] at h
  unfold upperN at *; split_ifs at * <;> omega

theorem lowerN_digit (c : Nat) (h : isDigitN (lowerN c) = true) : lowerN c = c := by
  rw [isDigitN_iff] at h
  unfold lowerN at *; split_ifs at * <;> omega

theorem digit_not_space (c : Nat) (h : isDigitN c = true) : isSpaceCharN c = false := by
  cases hs : isSpaceCharN c with
  | false => rfl
  | true =>
    rw [isDigitN_iff] at h
    rw [isSpaceCharN_iff] at hs
    omega

/-! Prefix and substring characterizations. -/

theorem prefB_iff : ∀ (y t : List Nat), prefB y t = true ↔ ∃ v, t = y ++ v
  | [], t => by simp [prefB]
  | _ :: _, [] => by simp [prefB]
  | a :: as, b :: bs => by
    rw [prefB]
    simp only [Bool.and_eq_true, beq_iff_eq, prefB_iff as bs, List.cons_append,
      List.cons.injEq]
    constructor
    · rintro ⟨rfl, v, rfl⟩; exact ⟨v, rfl, rfl⟩
    · rintro ⟨v, rfl, rfl⟩; exact ⟨rfl, v, rfl⟩

theorem subB_iff : ∀ (y t : List Nat), subB y t = true ↔ ∃ u v, t = u ++ y ++ v
  | y, [] => by
    rw [subB, prefB_iff]
    constructor
    · rintro ⟨v, hv⟩
      exact ⟨[], v, hv⟩
    · rintro ⟨u, v, huv⟩
      have := congrArg List.length huv
      simp at this
      refine ⟨[], ?_⟩
      have hu : u = [] := List.length_eq_zero.mp (by omega)
      have hy : y = [] := List.length_eq_zero.mp (by omega)
      have hv : v = [] := List.length_eq_zero.mp (by omega)
      simp [hy, hv]
  | y, c :: t => by
    rw [subB]
    simp only [Bool.or_eq_true, prefB_iff, subB_iff y t]
    constructor
    · rintro (⟨v, hv⟩ | ⟨u, v, huv⟩)
      · exact ⟨[], v, by simp [hv]⟩
      · exact ⟨c :: u, v, by simp [huv]⟩
    · rintro ⟨u, v, huv⟩
      cases u with
      | nil => exact Or.inl ⟨v, by simpa using huv⟩
      | cons u0 us =>
        simp only [List.cons_append, List.cons.injEq] at huv
        exact Or.inr ⟨us, v, huv.2⟩

/-! ### C5: the category classifier -/

/-- C5: on every input (including empty and null) the classifier returns exactly
one of the three categories, chosen by case-insensitive substring match in
priority order: a regional-language keyword gives `south`; else "dubbed" or
"dual audio" gives `hollywood`; else "hindi" gives `bollywood`; else the default
`hollywood` — so "Hindi Dubbed" classifies as `hollywood`, not `bollywood`. -/
theorem C5_classifier_total_priority :
    (∀ c : Option (List Nat), detect_category c = .south ∨
        detect_category c = .bollywood ∨ detect_category c = .hollywood) ∧
    (detect_category none = .hollywood) ∧
    (∀ s : List Nat, detect_category (some (s.map upperN)) = detect_category (some s)) ∧
    (∀ s : List Nat, detect_category (some (s.map lowerN)) = detect_category (some s)) ∧
    (∀ s : List Nat,
      (subB (strL "tamil") (s.map lowerN) || subB (strL "telugu") (s.map lowerN) ||
        subB (strL "malayalam") (s.map lowerN) || subB (strL "kannada") (s.map lowerN)) = true →
      detect_category (some s) = .south) ∧
    (∀ s : List Nat,
      (subB (strL "tamil") (s.map lowerN) || subB (strL "telugu") (s.map lowerN) ||
        subB (strL "malayalam") (s.map lowerN) || subB (strL "kannada") (s.map lowerN)) = false →
      (subB (strL "dubbed") (s.map lowerN) || subB (strL "dual audio") (s.map lowerN)) = true →
      detect_category (some s) = .hollywood) ∧
    (∀ s : List Nat,
      (subB (strL "tamil") (s.map lowerN) || subB (strL "telugu") (s.map lowerN) ||
        subB (strL "malayalam") (s.map lowerN) || subB (strL "kannada") (s.map lowerN)) = false →
      (subB (strL "dubbed") (s.map lowerN) || subB (strL "dual audio") (s.map lowerN)) = false →
      subB (strL "hindi") (s.map lowerN) = true →
      detect_category (some s) = .bollywood) ∧
    (∀ s : List Nat,
      (subB (strL "tamil") (s.map lowerN) || subB (strL "telugu") (s.map lowerN) ||
        subB (strL "malayalam") (s.map lowerN) || subB (strL "kannada") (s.map lowerN)) = false →
      (subB (strL "dubbed") (s.map lowerN) || subB (strL "dual audio") (s.map lowerN)) = false →
      subB (strL "hindi") (s.map lowerN) = false →
      detect_category (some s) = .hollywood) ∧
    (detect_category (some (strL "Hindi Dubbed")) = .hollywood) := by
  have hmap : ∀ s : List Nat, (s.map upperN).map lowerN = s.map lowerN := by
    intro s
    rw [List.map_map]
    exact List.map_congr_left (fun c _ => lowerN_upperN c)
  have hmap2 : ∀ s : List Nat, (s.map lowerN).map lowerN = s.map lowerN := by
    intro s
    rw [List.map_map]
    exact List.map_congr_left (fun c _ => lowerN_idem c)
  refine ⟨?_, by decide, ?_, ?_, ?_, ?_, ?_, ?_, by decide⟩
  · intro c
    simp only [detect_category]
    split_ifs <;> simp
  · intro s
    simp only [detect_category, Option.getD_some, hmap]
  · intro s
    simp only [detect_category, Option.getD_some, hmap2]
  · intro s h
    simp [detect_category, h]
  · intro s h1 h2
    simp [detect_category, h1, h2]
  · intro s h1 h2 h3
    simp [detect_category, h1, h2, h3]
  · intro s h1 h2 h3
    simp [detect_category, h1, h2, h3]

/-- Witness for C5: the regional-keyword rule fires on a concrete caption. -/
theorem C5_classifier_total_priority_witness :
    detect_category (some (strL "Jailer Tamil Full Movie")) = .south :=
  C5_classifier_total_priority.2.2.2.2.1 (strL "Jailer Tamil Full Movie") (by decide)

/-! ### C1: the minimal-record branch -/

/-- C1 (code bug): at a concrete message with media and a caption for which every
TMDB search attempt returns no results, the handler hits the minimal-record
branch, which raises `UnboundLocalError` at the `genres` entry (line 203 reads
the local `tmdb` before its first assignment at line 219), so no minimal record
is written and the store is unchanged — contradicting the claimed minimal
record with empty metadata fields. -/
theorem C1_minimal_branch_crashes :
    (handle (some ⟨some ⟨some (strL "file1")⟩, none, some (strL "zz")⟩)
        (fun _ _ => []) (fun _ => none) (strL "2024-01-01T00:00:00Z") []).err =
      some PyErr.unboundLocalTmdb ∧
    (handle (some ⟨some ⟨some (strL "file1")⟩, none, some (strL "zz")⟩)
        (fun _ _ => []) (fun _ => none) (strL "2024-01-01T00:00:00Z") []).store = [] := by
  exact ⟨rfl, rfl⟩

/-! ### C6: details failure abandons the write -/

/-- C6: when some search attempt returned a non-empty candidate list but the
details fetch for the first candidate's id fails, the handler returns without
touching the store (and without raising). -/
theorem C6_details_failure_no_write
    (m : Msg) (media : Media)
    (searchFn : List Nat → Option (List Nat) → List SearchResult)
    (detailsFn : Int → Option Tmdb) (now : List Nat) (store : Store)
    (qs : List (List Nat × Option (List Nat))) (r0 : SearchResult) (rs : List SearchResult)
    (i : Int)
    (hm : mediaOf m = some media)
    (hs : searchChain searchFn (m.caption.getD []) (extract_title_year (m.caption.getD [])) =
      (qs, r0 :: rs))
    (hid : r0.id = some i) (hnz : ¬ i = 0) (hdet : detailsFn i = none) :
    handle (some m) searchFn detailsFn now store = ⟨store, none, qs⟩ := by
  simp only [handle, hm, hs, chooseDetails, hid]
  simp [hnz, hdet]

/-- Witness for C6: a concrete run in which the first search succeeds, the
details fetch fails, and the store stays empty. -/
theorem C6_details_failure_no_write_witness :
    handle (some ⟨some ⟨some (strL "f")⟩, none, some (strL "Inception (2010)")⟩)
        (fun _ _ => [⟨some 27205⟩]) (fun _ => none) (strL "t0") [] =
      ⟨[], none, [(strL "Inception", some (strL "2010"))]⟩ :=
  C6_details_failure_no_write _ ⟨some (strL "f")⟩ _ _ _ _ _ ⟨some 27205⟩ [] 27205
    rfl (by decide) rfl (by decide) rfl

/-! ### Document-shape lemmas shared by C2, C8 and C10 -/

/-- The fixed field-key order of the data-model table. -/
def fieldOrderKeys : List FKey :=
  [.title, .posterUrl, .backdropUrl, .description, .category, .actors, .director,
    .producer, .rating, .downloadLinks, .telegramLinks, .seasons, .trailerLink,
    .genres, .releaseDate, .runtime, .tagline, .createdAt, .updatedAt, .schemaVersion]

/-- The fixed field-name order as stored in Mongo. -/
def fieldOrderNames : List String := fieldOrderKeys.map fieldName

theorem setVal_fst (d : Doc) (k : FKey) (v : Val) :
    (setVal d k v).map Prod.fst = d.map Prod.fst := by
  unfold setVal
  rw [List.map_map]
  apply List.map_congr_left
  intro p _
  by_cases h : p.1 = k
  · simp [h]
  · simp [h]

theorem getVal_setVal_ne (d : Doc) (k k' : FKey) (v : Val) (h : ¬ k' = k) :
    getVal (setVal d k v) k' = getVal d k' := by
  induction d with
  | nil => rfl
  | cons p rest ih =>
    have ih' : getVal (List.map (fun p => if p.1 = k then (k, v) else p) rest) k' =
        getVal rest k' := ih
    simp only [setVal, List.map_cons]
    by_cases hp : p.1 = k
    · rw [if_pos hp]
      simp only [getVal]
      rw [if_neg (fun hh : k = k' => h hh.symm), if_neg (fun hh : p.1 = k' => h (hh.symm.trans hp))]
      exact ih'
    · rw [if_neg hp]
      simp only [getVal]
      by_cases hk : p.1 = k'
      · rw [if_pos hk, if_pos hk]
      · rw [if_neg hk, if_neg hk]
        exact ih'

theorem getVal_setVal_self (d : Doc) (k : FKey) (v w : Val)
    (h : getVal d k = some w) : getVal (setVal d k v) k = some v := by
  induction d with
  | nil => exact absurd h (by simp [getVal])
  | cons p rest ih =>
    simp only [setVal, List.map_cons]
    by_cases hp : p.1 = k
    · rw [if_pos hp]
      simp only [getVal]
      simp
    · rw [if_neg hp]
      simp only [getVal]
      rw [if_neg hp]
      simp only [getVal] at h
      rw [if_neg hp] at h
      exact ih h

/-- Inversion of `build_ordered_doc`: the shape facts every built document has. -/
theorem build_fields (tmdb : Option Tmdb) (pt : List Nat) (fid : Option (List Nat))
    (cat : Category) (now : List Nat) (doc : Doc)
    (h : build_ordered_doc tmdb pt fid cat now = some doc) :
    doc.map Prod.fst = fieldOrderKeys ∧
    getVal doc .schemaVersion = some (.vInt 0) ∧
    getVal doc .telegramLinks = some (.vArr [.vStr (fid.getD [])]) ∧
    getVal doc .createdAt = some (.vStr now) ∧
    getVal doc .updatedAt = some (.vStr now) := by
  unfold build_ordered_doc at h
  cases ha : actorsStr tmdb with
  | none => rw [ha] at h; exact absurd h (by simp)
  | some as =>
    rw [ha] at h
    injection h with h
    subst h
    refine ⟨rfl, rfl, rfl, rfl, rfl⟩

theorem mem_find_one_and_replace (ft fr : Val) (doc d : Doc) (s : List Doc)
    (h : d ∈ find_one_and_replace ft fr doc s) : d = doc ∨ d ∈ s := by
  induction s with
  | nil =>
    unfold find_one_and_replace at h
    simp at h
    exact Or.inl h
  | cons e rest ih =>
    unfold find_one_and_replace at h
    by_cases hk : keyMatches ft fr e = true
    · rw [if_pos hk] at h
      rcases List.mem_cons.mp h with h | h
      · exact Or.inl h
      · exact Or.inr (List.mem_cons_of_mem _ h)
    · rw [if_neg hk] at h
      rcases List.mem_cons.mp h with h | h
      · exact Or.inr (h ▸ List.mem_cons_self _ _)
      · rcases ih h with h | h
        · exact Or.inl h
        · exact Or.inr (List.mem_cons_of_mem _ h)

/-- Every document in the post-run store is either an old one or (a
`createdAt`-adjusted copy of) the document built in full mode for this message. -/
theorem handle_new_doc (m : Msg) (media : Media)
    (searchFn : List Nat → Option (List Nat) → List SearchResult)
    (detailsFn : Int → Option Tmdb) (now : List Nat) (store : Store) (d : Doc)
    (hm : mediaOf m = some media)
    (hd : d ∈ (handle (some m) searchFn detailsFn now store).store) :
    d ∈ store ∨ ∃ (t : Tmdb) (doc : Doc) (v : Val),
      build_ordered_doc (some t)
          (pyOr (extract_title_year (m.caption.getD [])).title (t.title.getD []))
          media.file_id (detect_category (some (m.caption.getD []))) now = some doc ∧
      (d = doc ∨ d = setVal doc .createdAt v) := by
  rcases hsc : searchChain searchFn (m.caption.getD [])
      (extract_title_year (m.caption.getD [])) with ⟨qs, rl⟩
  cases rl with
  | nil =>
    simp only [handle, hm, hsc] at hd
    exact Or.inl hd
  | cons r0 rs =>
    cases hcd : chooseDetails detailsFn r0 with
    | none =>
      simp only [handle, hm, hsc, hcd] at hd
      exact Or.inl hd
    | some t =>
      cases hb : build_ordered_doc (some t)
          (pyOr (extract_title_year (m.caption.getD [])).title (t.title.getD []))
          media.file_id (detect_category (some (m.caption.getD []))) now with
      | none =>
        simp only [handle, hm, hsc, hcd, hb] at hd
        exact Or.inl hd
      | some doc =>
        simp only [handle, hm, hsc, hcd, hb] at hd
        simp only [upsertStep] at hd
        rcases hf : find_one ((getVal doc .title).getD .vNull)
            ((getVal doc .releaseDate).getD .vNull) store with _ | ex
        · simp only [hf] at hd
          rcases mem_find_one_and_replace _ _ _ _ _ hd with h | h
          · exact Or.inr ⟨t, doc, .vNull, hb, Or.inl h⟩
          · exact Or.inl h
        · simp only [hf] at hd
          rcases hca : getVal ex .createdAt with _ | v
          · simp only [hca] at hd
            rcases mem_find_one_and_replace _ _ _ _ _ hd with h | h
            · exact Or.inr ⟨t, doc, .vNull, hb, Or.inl h⟩
            · exact Or.inl h
          · simp only [hca] at hd
            by_cases ht : valTruthy v = true
            · rw [if_pos ht] at hd
              rcases mem_find_one_and_replace _ _ _ _ _ hd with h | h
              · exact Or.inr ⟨t, doc, v, hb, Or.inr h⟩
              · exact Or.inl h
            · rw [if_neg ht] at hd
              rcases mem_find_one_and_replace _ _ _ _ _ hd with h | h
              · exact Or.inr ⟨t, doc, .vNull, hb, Or.inl h⟩
              · exact Or.inl h

/-! ### C8: fixed field order -/

/-- C8: every document built in full mode, and every document the handler newly
writes, has its fields in exactly the fixed table order — title, posterUrl,
backdropUrl, description, category, actors, director, producer, rating,
downloadLinks, telegramLinks, seasons, trailerLink, genres, releaseDate,
runtime, tagline, createdAt, updatedAt, schema version (stored as `__v`) — with
the schema-version field constantly 0. -/
theorem C8_field_order :
    (∀ (tmdb : Option Tmdb) (pt : List Nat) (fid : Option (List Nat)) (cat : Category)
        (now : List Nat) (doc : Doc), build_ordered_doc tmdb pt fid cat now = some doc →
      doc.map Prod.fst = fieldOrderKeys ∧
      (doc.map Prod.fst).map fieldName = fieldOrderNames ∧
      getVal doc .schemaVersion = some (.vInt 0)) ∧
    (∀ (m : Msg) (media : Media) (searchFn : List Nat → Option (List Nat) → List SearchResult)
        (detailsFn : Int → Option Tmdb) (now : List Nat) (store : Store) (d : Doc),
      mediaOf m = some media → d ∈ (handle (some m) searchFn detailsFn now store).store →
      d ∈ store ∨ (d.map Prod.fst = fieldOrderKeys ∧
        getVal d .schemaVersion = some (.vInt 0))) := by
  constructor
  · intro tmdb pt fid cat now doc h
    obtain ⟨h1, h2, -, -, -⟩ := build_fields tmdb pt fid cat now doc h
    exact ⟨h1, by rw [h1]; rfl, h2⟩
  · intro m media searchFn detailsFn now store d hm hd
    rcases handle_new_doc m media searchFn detailsFn now store d hm hd with
      h | ⟨t, doc, v, hb, hdoc⟩
    · exact Or.inl h
    · obtain ⟨h1, h2, -, -, -⟩ := build_fields _ _ _ _ _ _ hb
      rcases hdoc with rfl | rfl
      · exact Or.inr ⟨h1, h2⟩
      · refine Or.inr ⟨?_, ?_⟩
        · rw [setVal_fst]; exact h1
        · rw [getVal_setVal_ne doc .createdAt .schemaVersion v (by decide)]
          exact h2

/-- Witness for C8 at a concrete built document. -/
theorem C8_field_order_witness :
    ((build_ordered_doc none (strL "X") none .hollywood (strL "t0")).getD []).map Prod.fst =
      fieldOrderKeys ∧
    getVal ((build_ordered_doc none (strL "X") none .hollywood (strL "t0")).getD [])
      .schemaVersion = some (.vInt 0) := by
  have h := C8_field_order.1 none (strL "X") none .hollywood (strL "t0")
    ((build_ordered_doc none (strL "X") none .hollywood (strL "t0")).getD []) (by rfl)
  exact ⟨h.1, h.2.2⟩

/-! ### C10: the telegramLinks field -/

/-- C10: in every document the system constructs (and every new document it
writes), telegramLinks is an array of exactly one string — the media file id, or
the empty string "" whenever the file id is missing or falsy (never null, never
an absent element). -/
theorem C10_telegram_links :
    (∀ (tmdb : Option Tmdb) (pt : List Nat) (fid : Option (List Nat)) (cat : Category)
        (now : List Nat) (doc : Doc), build_ordered_doc tmdb pt fid cat now = some doc →
      getVal doc .telegramLinks = some (.vArr [.vStr (fid.getD [])])) ∧
    (∀ (tmdb : Option Tmdb) (pt : List Nat) (cat : Category) (now : List Nat) (doc : Doc),
      (build_ordered_doc tmdb pt none cat now = some doc →
        getVal doc .telegramLinks = some (.vArr [.vStr []])) ∧
      (build_ordered_doc tmdb pt (some []) cat now = some doc →
        getVal doc .telegramLinks = some (.vArr [.vStr []]))) ∧
    (∀ (m : Msg) (media : Media) (searchFn : List Nat → Option (List Nat) → List SearchResult)
        (detailsFn : Int → Option Tmdb) (now : List Nat) (store : Store) (d : Doc),
      mediaOf m = some media → d ∈ (handle (some m) searchFn detailsFn now store).store →
      d ∈ store ∨ getVal d .telegramLinks = some (.vArr [.vStr (media.file_id.getD [])])) := by
  refine ⟨?_, ?_, ?_⟩
  · intro tmdb pt fid cat now doc h
    exact (build_fields tmdb pt fid cat now doc h).2.2.1
  · intro tmdb pt cat now doc
    constructor
    · intro h
      exact (build_fields tmdb pt none cat now doc h).2.2.1
    · intro h
      exact (build_fields tmdb pt (some []) cat now doc h).2.2.1
  · intro m media searchFn detailsFn now store d hm hd
    rcases handle_new_doc m media searchFn detailsFn now store d hm hd with
      h | ⟨t, doc, v, hb, hdoc⟩
    · exact Or.inl h
    · have h3 := (build_fields _ _ _ _ _ _ hb).2.2.1
      rcases hdoc with rfl | rfl
      · exact Or.inr h3
      · refine Or.inr ?_
        rw [getVal_setVal_ne doc .createdAt .telegramLinks v (by decide)]
        exact h3

/-- Witness for C10: a file id that is present, and one that is missing. -/
theorem C10_telegram_links_witness :
    getVal ((build_ordered_doc none (strL "X") (some (strL "fid99")) .hollywood
        (strL "t0")).getD []) .telegramLinks = some (.vArr [.vStr (strL "fid99")]) ∧
    getVal ((build_ordered_doc none (strL "X") none .hollywood (strL "t0")).getD [])
      .telegramLinks = some (.vArr [.vStr []]) := by
  constructor
  · exact C10_telegram_links.1 none (strL "X") (some (strL "fid99")) .hollywood (strL "t0")
      ((build_ordered_doc none (strL "X") (some (strL "fid99")) .hollywood (strL "t0")).getD [])
      (by rfl)
  · exact (C10_telegram_links.2.1 none (strL "X") .hollywood (strL "t0")
      ((build_ordered_doc none (strL "X") none .hollywood (strL "t0")).getD [])).1 (by rfl)

/-! ### C2: upsert preserves createdAt, refreshes updatedAt -/

/-- C2: a full-mode write whose (title, releaseDate) key matches an existing
stored record replaces every field except createdAt, which after the write
equals the existing record's createdAt (the source keeps the fresh stamp instead
when the stored value is falsy or absent, which cannot happen for records this
system wrote); updatedAt carries the fresh run timestamp on every write, and a
write with no existing record stamps both timestamps fresh. -/
theorem C2_upsert_preserves_createdAt
    (m : Msg) (media : Media)
    (searchFn : List Nat → Option (List Nat) → List SearchResult)
    (detailsFn : Int → Option Tmdb) (now : List Nat) (store : Store)
    (qs : List (List Nat × Option (List Nat))) (r0 : SearchResult) (rs : List SearchResult)
    (i : Int) (t : Tmdb) (doc : Doc)
    (hm : mediaOf m = some media)
    (hsc : searchChain searchFn (m.caption.getD [])
      (extract_title_year (m.caption.getD [])) = (qs, r0 :: rs))
    (hid : r0.id = some i) (hnz : ¬ i = 0) (hdet : detailsFn i = some t)
    (hb : build_ordered_doc (some t)
        (pyOr (extract_title_year (m.caption.getD [])).title (t.title.getD []))
        media.file_id (detect_category (some (m.caption.getD []))) now = some doc) :
    (∀ (ex : Doc) (v : Val),
      find_one ((getVal doc .title).getD .vNull) ((getVal doc .releaseDate).getD .vNull)
          store = some ex →
      getVal ex .createdAt = some v → valTruthy v = true →
      (handle (some m) searchFn detailsFn now store).store =
        find_one_and_replace ((getVal doc .title).getD .vNull)
          ((getVal doc .releaseDate).getD .vNull) (setVal doc .createdAt v) store ∧
      getVal (setVal doc .createdAt v) .createdAt = some v ∧
      (∀ k : FKey, ¬ k = .createdAt → getVal (setVal doc .createdAt v) k = getVal doc k) ∧
      getVal (setVal doc .createdAt v) .updatedAt = some (.vStr now)) ∧
    (find_one ((getVal doc .title).getD .vNull) ((getVal doc .releaseDate).getD .vNull)
        store = none →
      (handle (some m) searchFn detailsFn now store).store =
        find_one_and_replace ((getVal doc .title).getD .vNull)
          ((getVal doc .releaseDate).getD .vNull) doc store) ∧
    getVal doc .createdAt = some (.vStr now) ∧
    getVal doc .updatedAt = some (.vStr now) := by
  have hfields := build_fields _ _ _ _ _ _ hb
  have hchoose : chooseDetails detailsFn r0 = some t := by
    unfold chooseDetails
    rw [hid]
    simp [hnz, hdet]
  have hhandle : (handle (some m) searchFn detailsFn now store).store = upsertStep doc store := by
    simp only [handle, hm, hsc, hchoose, hb]
  refine ⟨?_, ?_, hfields.2.2.2.1, hfields.2.2.2.2⟩
  · intro ex v hex hca htr
    refine ⟨?_, ?_, ?_, ?_⟩
    · rw [hhandle]
      simp only [upsertStep, hex, hca, if_pos htr]
    · exact getVal_setVal_self doc .createdAt v _ hfields.2.2.2.1
    · intro k hk
      exact getVal_setVal_ne doc .createdAt k v hk
    · rw [getVal_setVal_ne doc .createdAt .updatedAt v (by decide)]
      exact hfields.2.2.2.2
  · intro hnone
    rw [hhandle]
    simp only [upsertStep, hnone]

/-- Concrete TMDB details object for the C2 witness. -/
def tmdbC2 : Tmdb := ⟨none, none, none, none, [], [], [], [], none, none, none, none⟩

/-- Concrete pre-existing stored record for the C2 witness. -/
def exDocC2 : Doc :=
  [(.title, .vStr (strL "Inception")), (.releaseDate, .vStr []),
    (.createdAt, .vStr (strL "old"))]

/-- The document built during the C2 witness run. -/
def docC2 : Doc :=
  (build_ordered_doc (some tmdbC2)
    (pyOr (extract_title_year (strL "Inception (2010)")).title (tmdbC2.title.getD []))
    (some (strL "f")) (detect_category (some (strL "Inception (2010)"))) (strL "new")).getD []

/-- Witness for C2: a concrete second upsert on the same key carries the first
record's createdAt and stamps the fresh updatedAt. -/
theorem C2_upsert_preserves_createdAt_witness :
    (handle (some ⟨some ⟨some (strL "f")⟩, none, some (strL "Inception (2010)")⟩)
        (fun _ _ => [⟨some 1⟩]) (fun _ => some tmdbC2) (strL "new") [exDocC2]).store =
      find_one_and_replace ((getVal docC2 .title).getD .vNull)
        ((getVal docC2 .releaseDate).getD .vNull)
        (setVal docC2 .createdAt (.vStr (strL "old"))) [exDocC2] ∧
    getVal (setVal docC2 .createdAt (.vStr (strL "old"))) .createdAt =
      some (.vStr (strL "old")) ∧
    getVal (setVal docC2 .createdAt (.vStr (strL "old"))) .updatedAt =
      some (.vStr (strL "new")) := by
  have h := (C2_upsert_preserves_createdAt
      ⟨some ⟨some (strL "f")⟩, none, some (strL "Inception (2010)")⟩ ⟨some (strL "f")⟩
      (fun _ _ => [⟨some 1⟩]) (fun _ => some tmdbC2) (strL "new") [exDocC2]
      [(strL "Inception", some (strL "2010"))] ⟨some 1⟩ [] 1 tmdbC2 docC2
      rfl rfl rfl (by decide) rfl rfl).1 exDocC2 (.vStr (strL "old")) rfl rfl rfl
  exact ⟨h.1, h.2.1, h.2.2.2⟩

/-! ### C7: search attempt order -/

/-- The code's search chain equals running the amended plan: parsed title with
raw-caption fallback, year-qualified first, stopping at the first non-empty
result. -/
theorem searchChain_eq_runPlan (searchFn : List Nat → Option (List Nat) → List SearchResult)
    (caption : List Nat) (parsed : Parsed) :
    searchChain searchFn caption parsed = runPlan searchFn (amendedPlan caption parsed) := by
  obtain ⟨pt, py⟩ := parsed
  cases py <;>
    simp only [searchChain, amendedPlan, pyOr, runPlan, List.cons_append, List.nil_append,
      List.singleton_append, List.append_nil] <;>
    split_ifs <;>
    simp_all [runPlan] <;>
    split_ifs <;>
    simp_all

/-- Running a plan yields no results exactly when every attempted query returned
the empty list. -/
theorem runPlan_empty_iff (searchFn : List Nat → Option (List Nat) → List SearchResult)
    (plan : List (List Nat × Option (List Nat))) :
    (runPlan searchFn plan).2 = [] ↔
      ∀ q ∈ (runPlan searchFn plan).1, searchFn q.1 q.2 = [] := by
  induction plan with
  | nil => simp [runPlan]
  | cons q qs ih =>
    by_cases h : (searchFn q.1 q.2).isEmpty
    · have he : searchFn q.1 q.2 = [] := by
        cases hq : searchFn q.1 q.2 with
        | nil => rfl
        | cons a l => rw [hq] at h; exact absurd h (by simp)
      simp only [runPlan, if_pos h]
      constructor
      · intro hr q' hq'
        rcases List.mem_cons.mp hq' with rfl | hq'
        · exact he
        · exact (ih.mp hr) q' hq'
      · intro hall
        exact ih.mpr (fun q' hq' => hall q' (List.mem_cons_of_mem _ hq'))
    · have he : ¬ searchFn q.1 q.2 = [] := by
        cases hq : searchFn q.1 q.2 with
        | nil => rw [hq] at h; exact absurd rfl h
        | cons a l => simp
      simp only [runPlan, if_neg h]
      constructor
      · intro hr
        exact absurd hr he
      · intro hall
        exact absurd (hall q (List.mem_cons_self _ _)) he

/-- C7 (amended): the handler issues its search attempts in exactly the amended
order — (a) search title with parsed year when a year was parsed, (b) search
title alone, (c) the raw caption when nonempty and different from the search
title, where the search title is the parsed title falling back to the raw
caption when the parsed title is empty — stopping at the first non-empty
result; the final result is empty iff every attempted search returned empty;
and the minimal-record branch (which raises, see C1) is entered iff the final
result is empty. -/
theorem C7_search_order_amended :
    (∀ (searchFn : List Nat → Option (List Nat) → List SearchResult)
        (caption : List Nat) (parsed : Parsed),
      searchChain searchFn caption parsed = runPlan searchFn (amendedPlan caption parsed)) ∧
    (∀ (searchFn : List Nat → Option (List Nat) → List SearchResult)
        (caption : List Nat) (parsed : Parsed),
      (searchChain searchFn caption parsed).2 = [] ↔
        ∀ q ∈ (searchChain searchFn caption parsed).1, searchFn q.1 q.2 = []) ∧
    (∀ (m : Msg) (media : Media) (searchFn : List Nat → Option (List Nat) → List SearchResult)
        (detailsFn : Int → Option Tmdb) (now : List Nat) (store : Store),
      mediaOf m = some media →
      ((handle (some m) searchFn detailsFn now store).err = some PyErr.unboundLocalTmdb ↔
        (searchChain searchFn (m.caption.getD [])
          (extract_title_year (m.caption.getD []))).2 = [])) := by
  refine ⟨searchChain_eq_runPlan, ?_, ?_⟩
  · intro searchFn caption parsed
    rw [searchChain_eq_runPlan]
    exact runPlan_empty_iff searchFn (amendedPlan caption parsed)
  · intro m media searchFn detailsFn now store hm
    rcases hsc : searchChain searchFn (m.caption.getD [])
        (extract_title_year (m.caption.getD [])) with ⟨qs, rl⟩
    cases rl with
    | nil => simp [handle, hm, hsc]
    | cons r0 rs =>
      cases hcd : chooseDetails detailsFn r0 with
      | none => simp [handle, hm, hsc, hcd]
      | some t =>
        cases hb : build_ordered_doc (some t)
            (pyOr (extract_title_year (m.caption.getD [])).title (t.title.getD []))
            media.file_id (detect_category (some (m.caption.getD []))) now with
        | none => simp [handle, hm, hsc, hcd, hb]
        | some doc => simp [handle, hm, hsc, hcd, hb]

/-- C7 counterexample: at caption "1999" (parsed title empty, year "1999"), with
every search returning empty, the code's issued attempts differ from the plan
the claim states (which would search with the empty parsed title twice and then
the raw caption): the code substitutes the raw caption for the empty parsed
title and then skips the raw-caption attempt. -/
theorem C7_counterexample :
    searchChain (fun _ _ => []) (strL "1999") (extract_title_year (strL "1999")) ≠
      runPlan (fun _ _ => [])
        (claimedPlan (strL "1999") (extract_title_year (strL "1999"))) := by
  decide

/-- Witness for C7: on a concrete no-result run the handler enters the
minimal-record branch (observable as the UnboundLocalError of C1). -/
theorem C7_search_order_amended_witness :
    (handle (some ⟨some ⟨some (strL "f")⟩, none, some (strL "abc")⟩) (fun _ _ => [])
        (fun _ => none) (strL "t0") []).err = some PyErr.unboundLocalTmdb :=
  (C7_search_order_amended.2.2 ⟨some ⟨some (strL "f")⟩, none, some (strL "abc")⟩
    ⟨some (strL "f")⟩ (fun _ _ => []) (fun _ => none) (strL "t0") [] rfl).mpr (by rfl)

/-! ### Character-set lemmas about the cleaning pipeline (for C3 and C4) -/

theorem mem_dropWhile (p : Nat → Bool) (s : List Nat) (c : Nat)
    (h : c ∈ s.dropWhile p) : c ∈ s := by
  induction s with
  | nil => simp at h
  | cons a l ih =>
    rw [List.dropWhile_cons] at h
    by_cases hp : p a = true
    · rw [if_pos hp] at h
      exact List.mem_cons_of_mem _ (ih h)
    · rw [if_neg hp] at h
      exact h

theorem mem_strip (s : List Nat) (c : Nat) (h : c ∈ strip s) : c ∈ s := by
  unfold strip at h
  rw [List.mem_reverse] at h
  have h2 := mem_dropWhile _ _ _ h
  rw [List.mem_reverse] at h2
  exact mem_dropWhile _ _ _ h2

theorem mem_collapseAux (b : Bool) (s : List Nat) (c : Nat)
    (h : c ∈ collapseAux b s) : c ∈ s ∨ c = 32 := by
  induction s generalizing b with
  | nil =>
    rw [collapseAux] at h
    simp at h
  | cons a l ih =>
    rw [collapseAux] at h
    split at h
    · split at h
      · rcases ih _ h with h | h
        · exact Or.inl (List.mem_cons_of_mem _ h)
        · exact Or.inr h
      · rcases List.mem_cons.mp h with rfl | h
        · exact Or.inr rfl
        · rcases ih _ h with h | h
          · exact Or.inl (List.mem_cons_of_mem _ h)
          · exact Or.inr h
    · rcases List.mem_cons.mp h with rfl | h
      · exact Or.inl (List.mem_cons_self _ _)
      · rcases ih _ h with h | h
        · exact Or.inl (List.mem_cons_of_mem _ h)
        · exact Or.inr h

theorem mem_replaceAllAux (y : List Nat) (fuel : Nat) (t : List Nat) (c : Nat)
    (h : c ∈ replaceAllAux y fuel t) : c ∈ t := by
  induction fuel generalizing t with
  | zero => rw [replaceAllAux] at h; exact h
  | succ fuel ih =>
    cases t with
    | nil => rw [replaceAllAux] at h; exact h
    | cons a l =>
      rw [replaceAllAux] at h
      split at h
      · exact List.drop_subset _ _ (ih _ h)
      · rcases List.mem_cons.mp h with rfl | h
        · exact List.mem_cons_self _ _
        · exact List.mem_cons_of_mem _ (ih _ h)

theorem mem_punctMap (s : List Nat) (c : Nat) (h : c ∈ punctMap s) :
    isWordCharN c = true ∨ isSpaceCharN c = true := by
  unfold punctMap at h
  rcases List.mem_map.mp h with ⟨x, -, rfl⟩
  split
  · exact Or.inr rfl
  · next hcond =>
    cases hw : isWordCharN x with
    | true => exact Or.inl rfl
    | false =>
      cases hsp : isSpaceCharN x with
      | true => exact Or.inr rfl
      | false => exact absurd (by rw [hw, hsp]; rfl) hcond

theorem mem_cleanText (s : List Nat) (c : Nat) (h : c ∈ cleanText s) :
    isWordCharN c = true ∨ isSpaceCharN c = true := by
  unfold cleanText at h
  have h1 := mem_strip _ _ h
  simp only [collapseSp] at h1
  rcases mem_collapseAux _ _ _ h1 with h2 | rfl
  · exact mem_punctMap _ _ h2
  · exact Or.inr rfl

/-! ### splitWs / joinSp structural lemmas -/

theorem joinSp_ne_nil (w : List Nat) (ws : List (List Nat)) (hw : ¬ w = []) :
    ¬ joinSp (w :: ws) = [] := by
  cases ws with
  | nil => simpa [joinSp] using hw
  | cons w2 ws' =>
    rw [joinSp]
    cases w with
    | nil => exact absurd rfl hw
    | cons c cs => simp

theorem mem_joinSp (ws : List (List Nat)) (c : Nat) (h : c ∈ joinSp ws) :
    (∃ w ∈ ws, c ∈ w) ∨ c = 32 := by
  induction ws with
  | nil => simp [joinSp] at h
  | cons w ws ih =>
    cases ws with
    | nil =>
      rw [joinSp] at h
      exact Or.inl ⟨w, List.mem_cons_self _ _, h⟩
    | cons w2 ws' =>
      rw [joinSp] at h
      rcases List.mem_append.mp h with h | h
      · exact Or.inl ⟨w, List.mem_cons_self _ _, h⟩
      · rcases List.mem_cons.mp h with rfl | h
        · exact Or.inr rfl
        · rcases ih h with ⟨w', hw', hc⟩ | h
          · exact Or.inl ⟨w', List.mem_cons_of_mem _ hw', hc⟩
          · exact Or.inr h

theorem joinSp_map (f : Nat → Nat) (hf : f 32 = 32) (ws : List (List Nat)) :
    (joinSp ws).map f = joinSp (ws.map (List.map f)) := by
  induction ws with
  | nil => rfl
  | cons w ws ih =>
    cases ws with
    | nil => rfl
    | cons w2 ws' =>
      simp only [joinSp, List.map_cons, List.map_append, hf, ih]

theorem splitWsAux_words (s : List Nat) :
    ∀ (acc : List Nat), (∀ c ∈ acc, isWordCharN c = true) →
      (∀ c ∈ s, isWordCharN c = true ∨ isSpaceCharN c = true) →
      ∀ w ∈ splitWsAux acc s, ¬ w = [] ∧ ∀ c ∈ w, isWordCharN c = true := by
  induction s with
  | nil =>
    intro acc hacc _ w hw
    rw [splitWsAux] at hw
    split at hw
    · simp at hw
    · next hne =>
      rw [List.mem_singleton] at hw
      subst hw
      constructor
      · intro hrev
        exact hne (by simp [List.reverse_eq_nil_iff.mp hrev])
      · intro c hc
        exact hacc c (List.mem_reverse.mp hc)
  | cons a l ih =>
    intro acc hacc hs w hw
    rw [splitWsAux] at hw
    split at hw
    · split at hw
      · exact ih [] (by simp) (fun c hc => hs c (List.mem_cons_of_mem _ hc)) w hw
      · next hne =>
        rcases List.mem_cons.mp hw with rfl | hw
        · constructor
          · intro hrev
            exact hne (by simp [List.reverse_eq_nil_iff.mp hrev])
          · intro c hc
            exact hacc c (List.mem_reverse.mp hc)
        · exact ih [] (by simp) (fun c hc => hs c (List.mem_cons_of_mem _ hc)) w hw
    · next hnsp =>
      have ha : isWordCharN a = true := by
        rcases hs a (List.mem_cons_self _ _) with h | h
        · exact h
        · exact absurd h hnsp
      refine ih (a :: acc) ?_ (fun c hc => hs c (List.mem_cons_of_mem _ hc)) w hw
      intro c hc
      rcases List.mem_cons.mp hc with rfl | hc
      · exact ha
      · exact hacc c hc

theorem splitWsAux_parts (s : List Nat) :
    ∀ (acc : List Nat), ∀ w ∈ splitWsAux acc s, ∃ u v, acc.reverse ++ s = u ++ w ++ v := by
  induction s with
  | nil =>
    intro acc w hw
    rw [splitWsAux] at hw
    split at hw
    · simp at hw
    · rw [List.mem_singleton] at hw
      subst hw
      exact ⟨[], [], by simp⟩
  | cons a l ih =>
    intro acc w hw
    rw [splitWsAux] at hw
    split at hw
    · split at hw
      · next hacc =>
        rcases ih [] w hw with ⟨u, v, huv⟩
        simp only [List.reverse_nil, List.nil_append] at huv
        refine ⟨acc.reverse ++ [a] ++ u, v, ?_⟩
        simp [huv, List.append_assoc]
      · rcases List.mem_cons.mp hw with rfl | hw
        · exact ⟨[], a :: l, by simp⟩
        · rcases ih [] w hw with ⟨u, v, huv⟩
          simp only [List.reverse_nil, List.nil_append] at huv
          refine ⟨acc.reverse ++ [a] ++ u, v, ?_⟩
          simp [huv, List.append_assoc]
    · rcases ih (a :: acc) w hw with ⟨u, v, huv⟩
      rw [List.reverse_cons, List.append_assoc] at huv
      exact ⟨u, v, by simpa using huv⟩

theorem splitWsAux_word_shift (w : List Nat) (hw : ∀ c ∈ w, isSpaceCharN c = false) :
    ∀ (acc rest : List Nat), splitWsAux acc (w ++ rest) = splitWsAux (w.reverse ++ acc) rest := by
  induction w with
  | nil => intro acc rest; simp
  | cons c w' ih =>
    intro acc rest
    have hc : isSpaceCharN c = false := hw c (List.mem_cons_self _ _)
    rw [List.cons_append, splitWsAux, if_neg (by simp [hc])]
    rw [ih (fun d hd => hw d (List.mem_cons_of_mem _ hd)) (c :: acc) rest]
    rw [List.reverse_cons, List.append_assoc]
    rfl

theorem splitWs_joinSp (tks : List (List Nat))
    (h : ∀ w ∈ tks, ¬ w = [] ∧ ∀ c ∈ w, isSpaceCharN c = false) :
    splitWs (joinSp tks) = tks := by
  induction tks with
  | nil => rfl
  | cons w tks' ih =>
    obtain ⟨hw, hwc⟩ := h w (List.mem_cons_self _ _)
    cases tks' with
    | nil =>
      show splitWsAux [] (joinSp [w]) = [w]
      rw [joinSp]
      have hshift := splitWsAux_word_shift w hwc [] []
      rw [List.append_nil, List.append_nil] at hshift
      rw [hshift, splitWsAux, if_neg (by simp [hw]), List.reverse_reverse]
    | cons w2 tks'' =>
      show splitWsAux [] (joinSp (w :: w2 :: tks'')) = w :: w2 :: tks''
      rw [joinSp]
      have hshift := splitWsAux_word_shift w hwc [] (32 :: joinSp (w2 :: tks''))
      rw [List.append_nil] at hshift
      rw [hshift, splitWsAux, if_pos (by rfl), if_neg (by simp [hw]), List.reverse_reverse]
      have ih' : splitWsAux [] (joinSp (w2 :: tks'')) = w2 :: tks'' :=
        ih (fun w' hw' => h w' (List.mem_cons_of_mem _ hw'))
      rw [ih']

/-! ### Fixed points of the cleaning stages on canonical text -/

theorem closerOf_none (c : Nat) (h : isWordCharN c = true ∨ isSpaceCharN c = true) :
    closerOf c = none := by
  have h1 : ¬ c = 91 ∧ ¬ c = 40 ∧ ¬ c = 123 := by
    rcases h with h | h
    · rw [isWordCharN_iff] at h
      omega
    · rw [isSpaceCharN_iff] at h
      omega
  simp [closerOf, h1.1, h1.2.1, h1.2.2]

theorem subBracketsAux_id (fuel : Nat) (s : List Nat)
    (h : ∀ c ∈ s, isWordCharN c = true ∨ isSpaceCharN c = true) :
    subBracketsAux fuel s = s := by
  induction fuel generalizing s with
  | zero => rfl
  | succ fuel ih =>
    cases s with
    | nil => rfl
    | cons c rest =>
      simp only [subBracketsAux, closerOf_none c (h c (List.mem_cons_self _ _))]
      rw [ih rest (fun d hd => h d (List.mem_cons_of_mem _ hd))]

theorem punctMap_id (s : List Nat)
    (h : ∀ c ∈ s, isWordCharN c = true ∨ isSpaceCharN c = true) : punctMap s = s := by
  induction s with
  | nil => rfl
  | cons c rest ih =>
    unfold punctMap at *
    rw [List.map_cons]
    have hc : (if !isWordCharN c && !isSpaceCharN c then 32 else c) = c := by
      rcases h c (List.mem_cons_self _ _) with h1 | h1 <;> simp [h1]
    rw [hc, ih (fun d hd => h d (List.mem_cons_of_mem _ hd))]

theorem collapseAux_word_chunk : ∀ (w : List Nat), (∀ c ∈ w, isSpaceCharN c = false) →
    ¬ w = [] → ∀ (b : Bool) (rest : List Nat),
      collapseAux b (w ++ rest) = w ++ collapseAux false rest := by
  intro w
  induction w with
  | nil => intro _ hne; exact absurd rfl hne
  | cons c w' ih =>
    intro hw _ b rest
    have hc : isSpaceCharN c = false := hw c (List.mem_cons_self _ _)
    rw [List.cons_append, collapseAux, if_neg (by simp [hc])]
    rcases eq_or_ne w' [] with rfl | hne
    · simp
    · rw [ih (fun d hd => hw d (List.mem_cons_of_mem _ hd)) hne false rest]
      rfl

theorem collapse_joinSp (tks : List (List Nat))
    (h : ∀ w ∈ tks, ¬ w = [] ∧ ∀ c ∈ w, isSpaceCharN c = false) :
    ∀ b : Bool, ¬ tks = [] → collapseAux b (joinSp tks) = joinSp tks := by
  induction tks with
  | nil => intro b h'; exact absurd rfl h'
  | cons w tks' ih =>
    intro b _
    obtain ⟨hw, hwc⟩ := h w (List.mem_cons_self _ _)
    cases tks' with
    | nil =>
      rw [joinSp]
      have hchunk := collapseAux_word_chunk w hwc hw b []
      simp only [collapseAux, List.append_nil] at hchunk
      exact hchunk
    | cons w2 tks'' =>
      rw [joinSp]
      rw [collapseAux_word_chunk w hwc hw b (32 :: joinSp (w2 :: tks''))]
      rw [collapseAux, if_pos (by rfl), if_neg (by simp)]
      rw [ih (fun w' hw' => h w' (List.mem_cons_of_mem _ hw')) true (by simp)]

theorem strip_id (s : List Nat)
    (h1 : ∀ c, s.head? = some c → isSpaceCharN c = false)
    (h2 : ∀ c, s.getLast? = some c → isSpaceCharN c = false) : strip s = s := by
  cases hs : s with
  | nil => rfl
  | cons a l =>
    unfold strip
    rw [← hs]
    have hd : s.dropWhile isSpaceCharN = s := by
      rw [hs, List.dropWhile_cons, if_neg (by simp [h1 a (by rw [hs]; rfl)])]
    rw [hd]
    cases hr : s.reverse with
    | nil =>
      rw [List.reverse_eq_nil_iff] at hr
      rw [hr]
      rfl
    | cons b r =>
      have hb : s.getLast? = some b := by
        rw [← List.head?_reverse, hr]
        rfl
      rw [List.dropWhile_cons, if_neg (by simp [h2 b hb]), ← hr, List.reverse_reverse]

theorem joinSp_head?_val (w : List Nat) (tks : List (List Nat)) (hw : ¬ w = []) :
    (joinSp (w :: tks)).head? = w.head? := by
  cases tks with
  | nil => rw [joinSp]
  | cons w2 tks' =>
    rw [joinSp]
    cases w with
    | nil => exact absurd rfl hw
    | cons c cs => rfl

theorem joinSp_head?_nonspace (tks : List (List Nat))
    (h : ∀ w ∈ tks, ¬ w = [] ∧ ∀ c ∈ w, isSpaceCharN c = false) :
    ∀ c, (joinSp tks).head? = some c → isSpaceCharN c = false := by
  intro c hc
  cases tks with
  | nil => simp [joinSp] at hc
  | cons w tks' =>
    obtain ⟨hw, hwc⟩ := h w (List.mem_cons_self _ _)
    rw [joinSp_head?_val w tks' hw] at hc
    exact hwc c (List.mem_of_mem_head? hc)

theorem joinSp_getLast?_nonspace (tks : List (List Nat))
    (h : ∀ w ∈ tks, ¬ w = [] ∧ ∀ c ∈ w, isSpaceCharN c = false) :
    ∀ c, (joinSp tks).getLast? = some c → isSpaceCharN c = false := by
  induction tks with
  | nil => intro c hc; simp [joinSp] at hc
  | cons w tks' ih =>
    obtain ⟨hw, hwc⟩ := h w (List.mem_cons_self _ _)
    cases tks' with
    | nil =>
      intro c hc
      rw [joinSp] at hc
      exact hwc c (List.mem_of_mem_getLast? hc)
    | cons w2 tks'' =>
      intro c hc
      rw [joinSp] at hc
      have hJ : ¬ joinSp (w2 :: tks'') = [] :=
        joinSp_ne_nil w2 tks'' (h w2 (by simp)).1
      rw [List.getLast?_append_of_ne_nil _ (by simp)] at hc
      rw [show (32 :: joinSp (w2 :: tks'')) = [32] ++ joinSp (w2 :: tks'') from rfl,
        List.getLast?_append_of_ne_nil _ hJ] at hc
      exact ih (fun w' hw' => h w' (List.mem_cons_of_mem _ hw')) c hc

/-! ### Word capitalization lemmas -/

theorem upperN_idem (c : Nat) : upperN (upperN c) = upperN c := by
  unfold upperN; split_ifs <;> omega

theorem map_lowerN_idem (l : List Nat) : (l.map lowerN).map lowerN = l.map lowerN := by
  rw [List.map_map]
  exact List.map_congr_left (fun c _ => lowerN_idem c)

theorem capitalizeW_ne_nil (w : List Nat) (hw : ¬ w = []) : ¬ capitalizeW w = [] := by
  cases w with
  | nil => exact absurd rfl hw
  | cons c cs => simp [capitalizeW]

theorem mem_capitalizeW (w : List Nat) (hword : ∀ c ∈ w, isWordCharN c = true) :
    ∀ c ∈ capitalizeW w, isWordCharN c = true := by
  cases w with
  | nil => intro c hc; simp [capitalizeW] at hc
  | cons a cs =>
    intro c hc
    rw [capitalizeW] at hc
    rcases List.mem_cons.mp hc with rfl | hc
    · exact upperN_word a (hword a (List.mem_cons_self _ _))
    · rcases List.mem_map.mp hc with ⟨x, hx, rfl⟩
      exact lowerN_word x (hword x (List.mem_cons_of_mem _ hx))

theorem capitalizeW_lower (w : List Nat) :
    capitalizeW ((capitalizeW w).map lowerN) = capitalizeW w := by
  cases w with
  | nil => rfl
  | cons c cs =>
    show capitalizeW ((upperN c :: cs.map lowerN).map lowerN) = capitalizeW (c :: cs)
    rw [List.map_cons]
    show upperN (lowerN (upperN c)) :: ((cs.map lowerN).map lowerN).map lowerN =
      upperN c :: cs.map lowerN
    rw [upperN_lowerN, upperN_idem, map_lowerN_idem, map_lowerN_idem]

/-! ### C3: idempotence of the produced title -/

theorem isEmpty_false_of_ne (l : List Nat) (h : ¬ l = []) : l.isEmpty = false := by
  cases l with
  | nil => exact absurd rfl h
  | cons a t => rfl

theorem joinSp_ne_nil' (tks : List (List Nat)) (h0 : ¬ tks = [])
    (h : ∀ w ∈ tks, ¬ w = []) : ¬ joinSp tks = [] := by
  cases tks with
  | nil => exact absurd rfl h0
  | cons w tks' => exact joinSp_ne_nil w tks' (h w (List.mem_cons_self _ _))

theorem mem_replaceAll (y t : List Nat) (c : Nat) (h : c ∈ replaceAll y t) : c ∈ t :=
  mem_replaceAllAux y t.length t c h

/-- Re-parsing a space-joined list of capitalized, all-word-character tokens
that contains no year token returns it unchanged. -/
theorem reparse_words (ws : List (List Nat))
    (hws : ∀ w ∈ ws, ¬ w = [] ∧ ∀ c ∈ w, isWordCharN c = true)
    (hy : findYear (joinSp (ws.map capitalizeW)) = none) :
    extract_title_year (joinSp (ws.map capitalizeW)) =
      ⟨joinSp (ws.map capitalizeW), none⟩ := by
  cases ws with
  | nil => rfl
  | cons w0 ws' =>
    have htks : ∀ w ∈ (w0 :: ws').map capitalizeW,
        ¬ w = [] ∧ ∀ c ∈ w, isWordCharN c = true := by
      intro w hw
      rcases List.mem_map.mp hw with ⟨v, hv, rfl⟩
      obtain ⟨hv1, hv2⟩ := hws v hv
      exact ⟨capitalizeW_ne_nil v hv1, mem_capitalizeW v hv2⟩
    have ht : ¬ joinSp ((w0 :: ws').map capitalizeW) = [] :=
      joinSp_ne_nil' _ (by simp) (fun w hw => (htks w hw).1)
    have hlwprops : ∀ w ∈ ((w0 :: ws').map capitalizeW).map (List.map lowerN),
        ¬ w = [] ∧ ∀ c ∈ w, isWordCharN c = true := by
      intro w hw
      rcases List.mem_map.mp hw with ⟨v, hv, rfl⟩
      obtain ⟨hv1, hv2⟩ := htks v hv
      constructor
      · intro hmap
        exact hv1 (by simpa using hmap)
      · intro c hc
        rcases List.mem_map.mp hc with ⟨x, hx, rfl⟩
        exact lowerN_word x (hv2 x hx)
    have hlwsp : ∀ w ∈ ((w0 :: ws').map capitalizeW).map (List.map lowerN),
        ¬ w = [] ∧ ∀ c ∈ w, isSpaceCharN c = false := by
      intro w hw
      obtain ⟨h1, h2⟩ := hlwprops w hw
      exact ⟨h1, fun c hc => word_not_space c (h2 c hc)⟩
    have hlwcs : ∀ c ∈ joinSp (((w0 :: ws').map capitalizeW).map (List.map lowerN)),
        isWordCharN c = true ∨ isSpaceCharN c = true := by
      intro c hc
      rcases mem_joinSp _ _ hc with ⟨w, hw, hcw⟩ | rfl
      · exact Or.inl ((hlwprops w hw).2 c hcw)
      · exact Or.inr rfl
    have hlow : (joinSp ((w0 :: ws').map capitalizeW)).map lowerN =
        joinSp (((w0 :: ws').map capitalizeW).map (List.map lowerN)) :=
      joinSp_map lowerN rfl _
    have hlwne : ¬ ((w0 :: ws').map capitalizeW).map (List.map lowerN) = [] := by simp
    have hJne : ¬ joinSp (((w0 :: ws').map capitalizeW).map (List.map lowerN)) = [] :=
      joinSp_ne_nil' _ hlwne (fun w hw => (hlwprops w hw).1)
    have hclean : cleanText (joinSp ((w0 :: ws').map capitalizeW)) =
        joinSp (((w0 :: ws').map capitalizeW).map (List.map lowerN)) := by
      unfold cleanText subBrackets collapseSp
      rw [hlow]
      rw [subBracketsAux_id _ _ hlwcs]
      rw [punctMap_id _ hlwcs]
      rw [collapse_joinSp _ hlwsp false hlwne]
      exact strip_id _ (joinSp_head?_nonspace _ hlwsp) (joinSp_getLast?_nonspace _ hlwsp)
    have hsplit : splitWs (joinSp (((w0 :: ws').map capitalizeW).map (List.map lowerN))) =
        ((w0 :: ws').map capitalizeW).map (List.map lowerN) :=
      splitWs_joinSp _ hlwsp
    have hmaps : ((((w0 :: ws').map capitalizeW).map (List.map lowerN)).map capitalizeW) =
        (w0 :: ws').map capitalizeW := by
      rw [List.map_map, List.map_map]
      exact List.map_congr_left (fun v _ => capitalizeW_lower v)
    simp only [extract_title_year, isEmpty_false_of_ne _ ht, Bool.false_eq_true, if_false,
      hy, hclean, isEmpty_false_of_ne _ hJne, hsplit, hmaps]

/-- C3 counterexample: re-parsing the title produced for "1999 2000" changes it.
The parser extracts the first year "1999" and removes only its occurrences, so
the title is "2000"; re-parsing "2000" extracts that year and yields the empty
title. -/
theorem C3_counterexample :
    ¬ (extract_title_year ((extract_title_year (strL "1999 2000")).title)).title =
      (extract_title_year (strL "1999 2000")).title := by
  decide

/-- C3 (amended): re-parsing the produced title yields that same title whenever
the produced title itself contains no 4-digit year token; a title that retains a
year token (possible, since only the first year found in the caption is removed)
is stripped further on re-parse. -/
theorem C3_title_reparse_amended (c : List Nat)
    (hy : findYear ((extract_title_year c).title) = none) :
    (extract_title_year ((extract_title_year c).title)).title =
      (extract_title_year c).title := by
  by_cases hce : c.isEmpty = true
  · simp [extract_title_year, hce]
  · have htitle : (extract_title_year c).title =
        (if (match findYear c with
              | some y => strip (replaceAll y (cleanText c))
              | none => cleanText c).isEmpty = true then []
         else joinSp ((splitWs (match findYear c with
              | some y => strip (replaceAll y (cleanText c))
              | none => cleanText c)).map capitalizeW)) := by
      simp only [extract_title_year, if_neg hce]
    by_cases hte : (match findYear c with
        | some y => strip (replaceAll y (cleanText c))
        | none => cleanText c).isEmpty = true
    · rw [htitle, if_pos hte]
      rfl
    · have hcs : ∀ a ∈ (match findYear c with
          | some y => strip (replaceAll y (cleanText c))
          | none => cleanText c),
          isWordCharN a = true ∨ isSpaceCharN a = true := by
        cases hfy : findYear c with
        | none => exact fun a ha => mem_cleanText c a ha
        | some y =>
          intro a ha
          exact mem_cleanText c a (mem_replaceAll _ _ _ (mem_strip _ _ ha))
      have hwords : ∀ w ∈ splitWs (match findYear c with
          | some y => strip (replaceAll y (cleanText c))
          | none => cleanText c), ¬ w = [] ∧ ∀ d ∈ w, isWordCharN d = true :=
        splitWsAux_words _ [] (by simp) hcs
      rw [htitle, if_neg hte] at hy ⊢
      rw [reparse_words _ hwords hy]

/-! ### C4: year removal and occurrences -/

theorem prefB_nil_false (y : List Nat) (hy : ¬ y = []) : prefB y [] = false := by
  cases y with
  | nil => exact absurd rfl hy
  | cons a as => rfl

/-- A text with no occurrence of `y` is unchanged by `replace`. -/
theorem replaceAllAux_no_occ (y : List Nat) :
    ∀ (fuel : Nat) (t : List Nat), (∀ i, prefB y (t.drop i) = false) →
      replaceAllAux y fuel t = t := by
  intro fuel
  induction fuel with
  | zero => intro t _; rfl
  | succ fuel ih =>
    intro t h
    cases t with
    | nil => rfl
    | cons a l =>
      have h0 : prefB y (a :: l) = false := by
        have := h 0
        simpa using this
      rw [replaceAllAux, if_neg (by simp [h0])]
      rw [ih l (fun i => h (i + 1))]

/-- Removing the unique occurrence of `y`: `replace` on `a ++ y ++ b` whose only
occurrence of `y` starts at `a.length` gives `a ++ b`. -/
theorem replaceAllAux_unique (y : List Nat) (hy : ¬ y = []) :
    ∀ (a b : List Nat) (fuel : Nat), (a ++ y ++ b).length ≤ fuel →
      (∀ i, prefB y ((a ++ y ++ b).drop i) = true → i = a.length) →
      replaceAllAux y fuel (a ++ y ++ b) = a ++ b := by
  intro a
  induction a with
  | nil =>
    intro b fuel hfuel huniq
    simp only [List.nil_append] at hfuel huniq ⊢
    cases y with
    | nil => exact absurd rfl hy
    | cons y0 ys =>
      cases fuel with
      | zero => simp at hfuel
      | succ fuel =>
        have hpre : prefB (y0 :: ys) (y0 :: (ys ++ b)) = true :=
          (prefB_iff _ _).mpr ⟨b, rfl⟩
        rw [List.cons_append, replaceAllAux, if_pos (by simp [hpre])]
        rw [show (y0 :: (ys ++ b)) = (y0 :: ys) ++ b from rfl, List.drop_left]
        apply replaceAllAux_no_occ
        intro i
        cases hpb : prefB (y0 :: ys) (b.drop i) with
        | false => rfl
        | true =>
          exfalso
          have hocc : prefB (y0 :: ys) (((y0 :: ys) ++ b).drop ((y0 :: ys).length + i)) = true := by
            rw [← List.drop_drop, List.drop_left]
            exact hpb
          have := huniq _ hocc
          simp at this
  | cons ha a' ih =>
    intro b fuel hfuel huniq
    cases fuel with
    | zero => simp at hfuel
    | succ fuel =>
      have hnp : prefB y (ha :: (a' ++ y ++ b)) = false := by
        cases hp : prefB y (ha :: (a' ++ y ++ b)) with
        | false => rfl
        | true =>
          exfalso
          have := huniq 0 (by simpa using hp)
          simp at this
      have hcond : (!y.isEmpty && prefB y (ha :: (a' ++ y ++ b))) = false := by
        rw [hnp, Bool.and_false]
      rw [show (ha :: a') ++ y ++ b = ha :: (a' ++ y ++ b) from rfl]
      rw [replaceAllAux, if_neg (by rw [hcond]; simp)]
      have hfuel' : (a' ++ y ++ b).length ≤ fuel := by
        simp only [List.cons_append, List.length_cons] at hfuel
        simp only [List.length_append]
        simp only [List.length_append] at hfuel
        omega
      have huniq' : ∀ i, prefB y ((a' ++ y ++ b).drop i) = true → i = a'.length := by
        intro i hp
        have := huniq (i + 1) (by simpa using hp)
        simpa using this
      rw [ih b fuel hfuel' huniq']
      rfl

/-- Occurrence decomposition across an append. -/
theorem subB_append (y p q : List Nat) (h : subB y (p ++ q) = true) :
    subB y p = true ∨ subB y q = true ∨
      ∃ y1 y2, y = y1 ++ y2 ∧ ¬ y1 = [] ∧ ¬ y2 = [] ∧
        (∃ u, p = u ++ y1) ∧ (∃ v, q = y2 ++ v) := by
  rcases (subB_iff _ _).mp h with ⟨u, v, huv⟩
  rw [List.append_assoc] at huv
  rcases List.append_eq_append_iff.mp huv with ⟨w, hw1, hw2⟩ | ⟨w, hw1, hw2⟩
  · refine Or.inr (Or.inl ?_)
    exact (subB_iff _ _).mpr ⟨w, v, by rw [hw2, List.append_assoc]⟩
  · rcases List.append_eq_append_iff.mp hw2 with ⟨z, hz1, hz2⟩ | ⟨z, hz1, hz2⟩
    · exact Or.inl ((subB_iff _ _).mpr ⟨u, z, by rw [hw1, hz1, List.append_assoc]⟩)
    · rcases eq_or_ne w [] with rfl | hwne
      · refine Or.inr (Or.inl ?_)
        refine (subB_iff _ _).mpr ⟨[], v, ?_⟩
        simp only [List.nil_append] at hz1 hz2 ⊢
        rw [hz2, hz1]
      · rcases eq_or_ne z [] with rfl | hzne
        · refine Or.inl ?_
          refine (subB_iff _ _).mpr ⟨u, [], ?_⟩
          rw [List.append_nil] at hz1
          rw [hw1, hz1, List.append_nil]
        · refine Or.inr (Or.inr ⟨w, z, hz1, hwne, hzne, ⟨u, hw1⟩, ⟨v, hz2⟩⟩)

/-- After removing the unique digit-isolated occurrence of the all-digit string
`y`, no occurrence of `y` remains: an occurrence inside `a` or `b` would be a
second occurrence, and one spanning the seam would require the last character
of `a` to be a digit. -/
theorem no_occ_remove (y a b : List Nat) (hy : ¬ y = [])
    (hdig : ∀ d ∈ y, isDigitN d = true)
    (huniq : ∀ i, prefB y ((a ++ y ++ b).drop i) = true → i = a.length)
    (hL : ∀ d, a.getLast? = some d → isDigitN d = false) :
    subB y (a ++ b) = false := by
  cases hs : subB y (a ++ b) with
  | false => rfl
  | true =>
    exfalso
    have hylen : 0 < y.length := List.length_pos.mpr hy
    rcases (subB_iff _ _).mp hs with ⟨u, v, huv⟩
    have hdropu : (a ++ b).drop u.length = y ++ v := by
      rw [huv, List.append_assoc, List.drop_left]
    rcases Nat.lt_or_ge u.length a.length with hlt | hge
    · rcases le_or_lt (u.length + y.length) a.length with hin | hspan
      · -- occurrence inside a: contradicts uniqueness
        have hua : u.length ≤ a.length := Nat.le_of_lt hlt
        have hx : a.drop u.length ++ b = y ++ v := by
          rw [← List.drop_append_of_le_length hua, hdropu]
        have hxlen : y.length ≤ (a.drop u.length).length := by
          rw [List.length_drop]
          omega
        have htake : (a.drop u.length).take y.length = y := by
          have h1 := @List.take_append_of_le_length _ (a.drop u.length) b y.length hxlen
          rw [hx, List.take_left] at h1
          exact h1.symm
        have hxdec : a.drop u.length = y ++ (a.drop u.length).drop y.length := by
          conv_lhs => rw [← List.take_append_drop y.length (a.drop u.length)]
          rw [htake]
        have hocc : prefB y ((a ++ y ++ b).drop u.length) = true := by
          have hx2 : (a ++ y ++ b).drop u.length = a.drop u.length ++ (y ++ b) := by
            rw [List.append_assoc, List.drop_append_of_le_length hua]
          rw [hx2, hxdec]
          exact (prefB_iff _ _).mpr ⟨(a.drop u.length).drop y.length ++ (y ++ b), by
            simp [List.append_assoc]⟩
        have := huniq _ hocc
        omega
      · -- spanning occurrence: the last character of a would be a digit
        have hkle : a.length - u.length ≤ y.length := by omega
        have ha : a = u ++ y.take (a.length - u.length) := by
          have h1 : (a ++ b).take a.length = a := List.take_left' rfl
          rw [huv, List.append_assoc] at h1
          rw [show a.length = u.length + (a.length - u.length) from by omega] at h1
          rw [List.take_append] at h1
          rw [List.take_append_of_le_length hkle] at h1
          exact h1.symm
        have hkne : ¬ y.take (a.length - u.length) = [] := by
          intro hnil
          have hlen := congrArg List.length hnil
          rw [List.length_take] at hlen
          simp only [List.length_nil] at hlen
          omega
        have hlast : a.getLast? = (y.take (a.length - u.length)).getLast? := by
          conv_lhs => rw [ha]
          exact List.getLast?_append_of_ne_nil _ hkne
        rcases hgl : (y.take (a.length - u.length)).getLast? with _ | d
        · exact hkne (List.getLast?_eq_none_iff.mp hgl)
        · have hd : isDigitN d = true :=
            hdig d (List.mem_of_mem_take (List.mem_of_mem_getLast? hgl))
          have hfd := hL d (by rw [hlast, hgl])
          rw [hd] at hfd
          exact absurd hfd (by simp)
    · -- occurrence inside b: contradicts uniqueness
      have hbj : b.drop (u.length - a.length) = y ++ v := by
        have h1 : (a ++ b).drop u.length = b.drop (u.length - a.length) := by
          conv_lhs => rw [show u.length = a.length + (u.length - a.length) from by omega]
          rw [← List.drop_drop, List.drop_left]
        rw [← h1, hdropu]
      have hocc : prefB y
          ((a ++ y ++ b).drop (a.length + y.length + (u.length - a.length))) = true := by
        have hdrop3 : (a ++ y ++ b).drop (a.length + y.length + (u.length - a.length)) =
            b.drop (u.length - a.length) := by
          rw [← List.drop_drop, List.drop_left' (by simp)]
        rw [hdrop3, hbj]
        exact (prefB_iff _ _).mpr ⟨v, rfl⟩
      have := huniq _ hocc
      omega

/-! ### Tracking a digit string back through title construction -/

theorem prefB_map_lower (y : List Nat) (hdig : ∀ d ∈ y, isDigitN d = true) :
    ∀ v : List Nat, prefB y (v.map lowerN) = true → prefB y v = true := by
  induction y with
  | nil => intro v _; rfl
  | cons d y' ih =>
    intro v h
    cases v with
    | nil => simp [prefB] at h
    | cons x v' =>
      rw [List.map_cons, prefB] at h
      rw [prefB]
      simp only [Bool.and_eq_true, beq_iff_eq] at h ⊢
      obtain ⟨h1, h2⟩ := h
      have hx : lowerN x = x := by
        apply lowerN_digit
        rw [← h1]
        exact hdig d (List.mem_cons_self _ _)
      exact ⟨h1.trans hx, ih (fun e he => hdig e (List.mem_cons_of_mem _ he)) v' h2⟩

theorem subB_map_lower (y : List Nat) (hdig : ∀ d ∈ y, isDigitN d = true) :
    ∀ v : List Nat, subB y (v.map lowerN) = true → subB y v = true := by
  intro v
  induction v with
  | nil => intro h; exact h
  | cons x v' ih =>
    intro h
    rw [List.map_cons, subB] at h
    rw [subB]
    simp only [Bool.or_eq_true] at h ⊢
    rcases h with h | h
    · exact Or.inl (prefB_map_lower y hdig (x :: v') (by rw [List.map_cons]; exact h))
    · exact Or.inr (ih h)

theorem subB_capitalizeW (y : List Nat) (hdig : ∀ d ∈ y, isDigitN d = true)
    (w : List Nat) (h : subB y (capitalizeW w) = true) : subB y w = true := by
  cases w with
  | nil => exact h
  | cons c cs =>
    rw [capitalizeW, subB] at h
    rw [subB]
    simp only [Bool.or_eq_true] at h ⊢
    rcases h with h | h
    · left
      cases y with
      | nil => rfl
      | cons d y' =>
        rw [prefB] at h ⊢
        simp only [Bool.and_eq_true, beq_iff_eq] at h ⊢
        obtain ⟨h1, h2⟩ := h
        have hc : upperN c = c := by
          apply upperN_digit
          rw [← h1]
          exact hdig d (List.mem_cons_self _ _)
        exact ⟨h1.trans hc,
          prefB_map_lower y' (fun e he => hdig e (List.mem_cons_of_mem _ he)) cs h2⟩
    · exact Or.inr (subB_map_lower y hdig cs h)

theorem subB_joinSp (y : List Nat) (hy : ¬ y = []) (hdig : ∀ d ∈ y, isDigitN d = true) :
    ∀ ls : List (List Nat), subB y (joinSp ls) = true → ∃ w ∈ ls, subB y w = true := by
  intro ls
  induction ls with
  | nil =>
    intro h
    rw [joinSp, subB, prefB_nil_false y hy] at h
    simp at h
  | cons w ls' ih =>
    intro h
    cases ls' with
    | nil =>
      rw [joinSp] at h
      exact ⟨w, List.mem_cons_self _ _, h⟩
    | cons w2 ls'' =>
      rw [joinSp] at h
      rcases subB_append y w (32 :: joinSp (w2 :: ls'')) h with
        h | h | ⟨y1, y2, hy12, hy1, hy2, hu, ⟨v, hv⟩⟩
      · exact ⟨w, List.mem_cons_self _ _, h⟩
      · rw [subB] at h
        simp only [Bool.or_eq_true] at h
        rcases h with h | h
        · exfalso
          cases y with
          | nil => exact hy rfl
          | cons d y' =>
            rw [prefB] at h
            simp only [Bool.and_eq_true, beq_iff_eq] at h
            have h32 : isDigitN 32 = true := by
              rw [← h.1]
              exact hdig d (List.mem_cons_self _ _)
            simp [isDigitN] at h32
        · rcases ih h with ⟨w', hw', hsw⟩
          exact ⟨w', List.mem_cons_of_mem _ hw', hsw⟩
      · exfalso
        cases y2 with
        | nil => exact hy2 rfl
        | cons e y2' =>
          rw [List.cons_append] at hv
          injection hv with h1 _
          have h32 : isDigitN 32 = true := by
            rw [h1]
            exact hdig e (by rw [hy12]; exact List.mem_append_right _ (List.mem_cons_self _ _))
          simp [isDigitN] at h32

theorem dropWhile_suffix_ex (p : Nat → Bool) (s : List Nat) :
    ∃ u, s = u ++ s.dropWhile p := by
  induction s with
  | nil => exact ⟨[], rfl⟩
  | cons a l ih =>
    rw [List.dropWhile_cons]
    by_cases hp : p a = true
    · rw [if_pos hp]
      rcases ih with ⟨u, hu⟩
      exact ⟨a :: u, by rw [List.cons_append, ← hu]⟩
    · rw [if_neg hp]
      exact ⟨[], rfl⟩

theorem strip_parts (s : List Nat) : ∃ u v, s = u ++ strip s ++ v := by
  unfold strip
  rcases dropWhile_suffix_ex isSpaceCharN s with ⟨u1, hu1⟩
  rcases dropWhile_suffix_ex isSpaceCharN (s.dropWhile isSpaceCharN).reverse with ⟨u2, hu2⟩
  refine ⟨u1, u2.reverse, ?_⟩
  have hmid : s.dropWhile isSpaceCharN =
      ((s.dropWhile isSpaceCharN).reverse.dropWhile isSpaceCharN).reverse ++ u2.reverse := by
    have h3 := congrArg List.reverse hu2
    rw [List.reverse_reverse, List.reverse_append] at h3
    exact h3
  conv_lhs => rw [hu1, hmid]
  rw [List.append_assoc]

theorem subB_strip (y s : List Nat) (h : subB y (strip s) = true) : subB y s = true := by
  rcases strip_parts s with ⟨u, v, huv⟩
  rcases (subB_iff _ _).mp h with ⟨u', v', h2⟩
  refine (subB_iff _ _).mpr ⟨u ++ u', v' ++ v, ?_⟩
  rw [huv, h2]
  simp [List.append_assoc]

theorem subB_splitWs (y s w : List Nat) (hw : w ∈ splitWs s) (h : subB y w = true) :
    subB y s = true := by
  rcases splitWsAux_parts s [] w hw with ⟨u, v, huv⟩
  simp only [List.reverse_nil, List.nil_append] at huv
  rcases (subB_iff _ _).mp h with ⟨u', v', h2⟩
  refine (subB_iff _ _).mpr ⟨u ++ u', v' ++ v, ?_⟩
  rw [huv, h2]
  simp [List.append_assoc]

/-- Unfolding equation of `findYearAux` on a four-character head. -/
theorem findYearAux_cons_eq (c1 c2 c3 c4 : Nat) (rest : List Nat) (b : Bool) :
    findYearAux (c1 :: c2 :: c3 :: c4 :: rest) b =
      (if !b && ((c1 == 49 && c2 == 57) || (c1 == 50 && c2 == 48)) && isDigitN c3 &&
          isDigitN c4 && !(match rest with | [] => false | r :: _ => isWordCharN r) then
        some [c1, c2, c3, c4]
      else
        findYearAux (c2 :: c3 :: c4 :: rest) (isWordCharN c1)) := rfl

/-- The matched year is four digits long. -/
theorem findYearAux_shape : ∀ (s : List Nat) (b : Bool) (y : List Nat),
    findYearAux s b = some y → y.length = 4 ∧ ∀ d ∈ y, isDigitN d = true := by
  intro s
  induction s with
  | nil => intro b y h; exact absurd h (by simp [findYearAux])
  | cons c1 s ih =>
    intro b y h
    rcases s with _ | ⟨c2, s2⟩
    · exact absurd h (by simp [findYearAux])
    rcases s2 with _ | ⟨c3, s3⟩
    · exact absurd h (by simp [findYearAux])
    rcases s3 with _ | ⟨c4, rest⟩
    · exact absurd h (by simp [findYearAux])
    rw [findYearAux_cons_eq] at h
    split at h
    · next hcond =>
      injection h with h
      subst h
      refine ⟨rfl, ?_⟩
      simp only [Bool.and_eq_true, Bool.or_eq_true, beq_iff_eq] at hcond
      intro d hd
      rcases hcond with ⟨⟨⟨⟨-, hc12⟩, hc3⟩, hc4⟩, -⟩
      simp only [List.mem_cons, List.mem_singleton] at hd
      rcases hd with rfl | rfl | rfl | rfl | hd
      · rcases hc12 with ⟨rfl, -⟩ | ⟨rfl, -⟩ <;> rfl
      · rcases hc12 with ⟨-, rfl⟩ | ⟨-, rfl⟩ <;> rfl
      · exact hc3
      · exact hc4
      · simp at hd
    · exact ih _ _ h

theorem findYear_shape (c y : List Nat) (h : findYear c = some y) :
    y.length = 4 ∧ ∀ d ∈ y, isDigitN d = true :=
  findYearAux_shape c false y h

/-- Witness for C3: a caption whose title contains no year re-parses to itself. -/
theorem C3_title_reparse_amended_witness :
    findYear ((extract_title_year (strL "fast and furious 2001")).title) = none ∧
    (extract_title_year ((extract_title_year (strL "fast and furious 2001")).title)).title =
      (extract_title_year (strL "fast and furious 2001")).title :=
  ⟨by decide, C3_title_reparse_amended (strL "fast and furious 2001") (by decide)⟩

/-- C4 (amended): the parser returns the leftmost year token in the year field,
and the year string does not occur in the returned title provided the cleaned
caption text contains exactly one occurrence of the year's digit string and that
occurrence is not preceded by another digit (without this proviso the removal
can let surrounding digits re-form the year, see the counterexample). -/
theorem C4_year_extraction_amended (c y a b : List Nat)
    (hy : findYear c = some y)
    (hsplit : cleanText c = a ++ y ++ b)
    (huniq : ∀ i < (cleanText c).length,
      prefB y ((cleanText c).drop i) = true → i = a.length)
    (hL : (a.getLast?).all (fun d => !isDigitN d) = true) :
    (extract_title_year c).year = some y ∧
    subB y ((extract_title_year c).title) = false := by
  have hshape := findYear_shape c y hy
  have hyne : ¬ y = [] := by
    intro hnil
    rw [hnil] at hshape
    simp at hshape
  have hcne : ¬ c.isEmpty = true := by
    intro hce
    have hcnil : c = [] := by
      cases c with
      | nil => rfl
      | cons x xs => simp at hce
    rw [hcnil] at hy
    exact absurd hy (by simp [findYear, findYearAux])
  have huniq' : ∀ i, prefB y ((a ++ y ++ b).drop i) = true → i = a.length := by
    intro i hp
    rcases Nat.lt_or_ge i (cleanText c).length with hi | hi
    · refine huniq i hi ?_
      rw [hsplit]
      exact hp
    · exfalso
      rw [← hsplit] at hp
      rw [List.drop_eq_nil_iff.mpr hi, prefB_nil_false y hyne] at hp
      exact Bool.false_ne_true hp
  have hrepl : replaceAll y (cleanText c) = a ++ b := by
    rw [hsplit]
    exact replaceAllAux_unique y hyne a b (a ++ y ++ b).length (le_refl _) huniq'
  constructor
  · simp only [extract_title_year, if_neg hcne, hy]
  · have htitle : (extract_title_year c).title =
        (if (strip (a ++ b)).isEmpty = true then []
         else joinSp ((splitWs (strip (a ++ b))).map capitalizeW)) := by
      simp only [extract_title_year, if_neg hcne, hy, hrepl]
    rw [htitle]
    by_cases hte : (strip (a ++ b)).isEmpty = true
    · rw [if_pos hte]
      cases y with
      | nil => exact absurd rfl hyne
      | cons d y' => rfl
    · rw [if_neg hte]
      cases hsub : subB y (joinSp ((splitWs (strip (a ++ b))).map capitalizeW)) with
      | false => rfl
      | true =>
        exfalso
        rcases subB_joinSp y hyne hshape.2 _ hsub with ⟨w', hw', hsw'⟩
        rcases List.mem_map.mp hw' with ⟨w, hw, rfl⟩
        have h1 := subB_capitalizeW y hshape.2 w hsw'
        have h2 := subB_splitWs y (strip (a ++ b)) w hw h1
        have h3 := subB_strip y (a ++ b) h2
        have hLf : ∀ d, a.getLast? = some d → isDigitN d = false := by
          intro d hd
          rw [hd] at hL
          simp only [Option.all] at hL
          cases hdig : isDigitN d with
          | false => rfl
          | true =>
            rw [hdig] at hL
            simp at hL
        rw [no_occ_remove y a b hyne hshape.2 huniq' hLf] at h3
        exact Bool.false_ne_true h3

/-- C4 counterexample: the caption "1999 19199999" contains exactly one year
token at word boundaries, "1999"; yet removing the left-to-right occurrences of
"1999" from the cleaned text lets the surrounding digits re-form "1999", and the
returned title is exactly "1999" — the year string occurs in the title. -/
theorem C4_year_extraction_counterexample :
    findYear (strL "1999 19199999") = some (strL "1999") ∧
    (extract_title_year (strL "1999 19199999")).year = some (strL "1999") ∧
    subB (strL "1999") ((extract_title_year (strL "1999 19199999")).title) = true := by
  decide

/-- Witness for C4 at the caption "movie 1999". -/
theorem C4_year_extraction_amended_witness :
    (extract_title_year (strL "movie 1999")).year = some (strL "1999") ∧
    subB (strL "1999") ((extract_title_year (strL "movie 1999")).title) = false :=
  C4_year_extraction_amended (strL "movie 1999") (strL "1999") (strL "movie ") []
    (by decide) (by decide) (by decide) (by decide)
